import Mathlib

/-!
Verification of the image-preparation pipeline, citation resolver and chat
assembly of `src/app.py` (a Streamlit question-answering front-end).

The Python code performs its geometric arithmetic with CPython floats, i.e.
IEEE-754 binary64 values with correctly rounded (round-to-nearest, ties to
even) multiplication and division.  We model binary64 arithmetic exactly
inside `ℚ`: `round64 q` is the binary64 value nearest to `q` (ties to even).
The model covers the normal range used by the program (all intermediate
values lie well inside `[2^(-100), 2^100]`, so overflow and subnormals are
irrelevant, and every quantity stays far from the extremes of the binary64
range).  `pyTrunc` models Python's `int(...)` truncation toward zero.
-/

/-- Fuel-bounded floor of `log₂ n`; returns the exact `⌊log₂ n⌋` whenever
`1 ≤ n < 2 ^ fuel` (proved in `nlog2F_correct`). -/
def nlog2F : ℕ → ℕ → ℕ
  | 0, _ => 0
  | fuel + 1, n => if 2 ≤ n then nlog2F fuel (n / 2) + 1 else 0

/-- Integer power of two in `ℚ`, for an integer (possibly negative) exponent. -/
def qpow2 (e : ℤ) : ℚ :=
  if 0 ≤ e then ((2 ^ e.toNat : ℕ) : ℚ) else ((2 ^ (-e).toNat : ℕ) : ℚ)⁻¹

/-- Binade exponent of a positive rational: `qExp q = ⌊log₂ q⌋`, computed by
scaling the (reduced) fraction by `2 ^ 100` and taking a fuel-bounded log. -/
def qExp (q : ℚ) : ℤ :=
  (nlog2F 300 ((q.num.toNat * 2 ^ 100) / q.den) : ℤ) - 100

/-- Round a rational to the nearest integer, ties to even. -/
def rne (q : ℚ) : ℤ :=
  if q - ⌊q⌋ < 1 / 2 then ⌊q⌋
  else if 1 / 2 < q - ⌊q⌋ then ⌊q⌋ + 1
  else if ⌊q⌋ % 2 = 0 then ⌊q⌋ else ⌊q⌋ + 1

/-- Round a positive rational to the binary64 grid: scale into `[2^52, 2^53)`,
round the 53-bit significand to nearest (ties to even), scale back. -/
def roundPos (q : ℚ) : ℚ :=
  ((rne (q * qpow2 (52 - qExp q)) : ℤ) : ℚ) * qpow2 (qExp q - 52)

/-- The binary64 value nearest to `q` (round to nearest, ties to even),
for values in the normal range. -/
def round64 (q : ℚ) : ℚ :=
  if q = 0 then 0 else if 0 < q then roundPos q else -roundPos (-q)

/-- Python `int(...)` applied to a float/rational: truncation toward zero. -/
def pyTrunc (q : ℚ) : ℤ :=
  if 0 ≤ q then ⌊q⌋ else -⌊-q⌋

/-- IEEE-754 binary64 multiplication (correctly rounded). -/
def fmul (a b : ℚ) : ℚ := round64 (a * b)

/-- IEEE-754 binary64 division (correctly rounded). -/
def fdiv (a b : ℚ) : ℚ := round64 (a / b)

/-- Conversion of a Python `int` to a float (exact below `2 ^ 53`). -/
def f64 (n : ℕ) : ℚ := round64 (n : ℚ)

lemma qpow2_eq_zpow (e : ℤ) : qpow2 e = (2 : ℚ) ^ e := by
  unfold qpow2
  by_cases h : 0 ≤ e
  · rw [if_pos h]
    push_cast
    rw [← zpow_natCast (2 : ℚ) e.toNat, Int.toNat_of_nonneg h]
  · rw [if_neg h]
    push_cast
    rw [← zpow_natCast (2 : ℚ) (-e).toNat, Int.toNat_of_nonneg (by omega), ← zpow_neg, neg_neg]

lemma qpow2_pos (e : ℤ) : 0 < qpow2 e := by
  rw [qpow2_eq_zpow]; positivity

lemma qpow2_mono {a b : ℤ} (h : a ≤ b) : qpow2 a ≤ qpow2 b := by
  rw [qpow2_eq_zpow, qpow2_eq_zpow]
  exact zpow_le_zpow_right₀ (by norm_num) h

lemma qpow2_lt_qpow2 {a b : ℤ} (h : qpow2 a < qpow2 b) : a < b := by
  rw [qpow2_eq_zpow, qpow2_eq_zpow] at h
  exact (zpow_lt_zpow_iff_right₀ (by norm_num)).mp h

lemma qpow2_mul_qpow2 (a b : ℤ) : qpow2 a * qpow2 b = qpow2 (a + b) := by
  rw [qpow2_eq_zpow, qpow2_eq_zpow, qpow2_eq_zpow, ← zpow_add₀ (by norm_num : (2:ℚ) ≠ 0)]

lemma nlog2F_correct : ∀ fuel n, 1 ≤ n → n < 2 ^ fuel →
    2 ^ nlog2F fuel n ≤ n ∧ n < 2 ^ (nlog2F fuel n + 1) := by
  intro fuel
  induction fuel with
  | zero => intro n h1 h2; omega
  | succ f ih =>
    intro n h1 h2
    unfold nlog2F
    by_cases h : 2 ≤ n
    · rw [if_pos h]
      have hrec := ih (n / 2) (by omega) (by omega)
      have hmod := Nat.div_add_mod n 2
      constructor
      · calc 2 ^ (nlog2F f (n / 2) + 1) = 2 ^ nlog2F f (n / 2) * 2 := by ring
        _ ≤ (n / 2) * 2 := by exact Nat.mul_le_mul_right 2 hrec.1
        _ ≤ n := by omega
      · calc n = 2 * (n / 2) + n % 2 := (Nat.div_add_mod n 2).symm
        _ < 2 * 2 ^ (nlog2F f (n / 2) + 1) := by
            have := hrec.2
            have hm : n % 2 < 2 := Nat.mod_lt n (by norm_num)
            omega
        _ = 2 ^ (nlog2F f (n / 2) + 1 + 1) := by ring
    · rw [if_neg h]
      simp only [pow_zero, pow_one]
      omega

lemma qpow2_natCast (k : ℕ) : qpow2 (k : ℤ) = ((2 ^ k : ℕ) : ℚ) := by
  unfold qpow2
  rw [if_pos (by positivity), Int.toNat_natCast]

lemma qExp_correct (q : ℚ) (h0 : 0 < q) (hlo : qpow2 (-100) ≤ q) (hhi : q ≤ qpow2 100) :
    qpow2 (qExp q) ≤ q ∧ q < qpow2 (qExp q + 1) := by
  set a : ℕ := q.num.toNat with ha
  set b : ℕ := q.den with hb
  have hbpos : 0 < b := q.den_pos
  have hnum : 0 < q.num := Rat.num_pos.mpr h0
  have haq : ((a : ℤ) : ℚ) = (q.num : ℚ) := by
    rw [ha, Int.toNat_of_nonneg (le_of_lt hnum)]
  have hq : q = (a : ℚ) / (b : ℚ) := by
    rw [hb]
    push_cast at haq ⊢
    rw [haq, Rat.num_div_den]
  have hb0 : (0 : ℚ) < (b : ℚ) := by exact_mod_cast hbpos
  -- translate the range assumptions into Nat inequalities
  have h100 : qpow2 (100 : ℤ) = ((2 ^ 100 : ℕ) : ℚ) := qpow2_natCast 100
  have hm100 : qpow2 (-100 : ℤ) = ((2 ^ 100 : ℕ) : ℚ)⁻¹ := by
    rw [qpow2_eq_zpow, show ((-100 : ℤ)) = -(100 : ℤ) by norm_num, zpow_neg, ← qpow2_eq_zpow,
      h100]
  have hlowN : b ≤ a * 2 ^ 100 := by
    have h1 : ((2 ^ 100 : ℕ) : ℚ)⁻¹ ≤ (a : ℚ) / (b : ℚ) := by rw [← hq, ← hm100]; exact hlo
    have h2 : (b : ℚ) ≤ (a : ℚ) * (2 ^ 100 : ℕ) := by
      rw [div_eq_mul_inv] at h1
      have hp : (0 : ℚ) < ((2 ^ 100 : ℕ) : ℚ) := by positivity
      rw [inv_le_iff_one_le_mul₀ hp] at h1
      · calc (b : ℚ) = b * 1 := by ring
          _ ≤ (b : ℚ) * ((a : ℚ) * (b : ℚ)⁻¹ * (2 ^ 100 : ℕ)) := by
              nlinarith [h1]
          _ = (a : ℚ) * (2 ^ 100 : ℕ) * ((b : ℚ) * (b : ℚ)⁻¹) := by ring
          _ = (a : ℚ) * (2 ^ 100 : ℕ) := by rw [mul_inv_cancel₀ (ne_of_gt hb0), mul_one]
    exact_mod_cast h2
  have hhiN : a ≤ b * 2 ^ 100 := by
    have h1 : (a : ℚ) / (b : ℚ) ≤ ((2 ^ 100 : ℕ) : ℚ) := by rw [← hq, ← h100]; exact hhi
    have h2 : (a : ℚ) ≤ (b : ℚ) * ((2 ^ 100 : ℕ) : ℚ) := by
      rw [div_le_iff₀ hb0] at h1; linarith [h1]
    exact_mod_cast h2
  set n : ℕ := (a * 2 ^ 100) / b with hn
  have hn1 : 1 ≤ n := by
    rw [hn]
    exact Nat.one_le_div_iff hbpos |>.mpr hlowN
  have hn2 : n < 2 ^ 300 := by
    have h1 : n * b ≤ a * 2 ^ 100 := Nat.div_mul_le_self _ _
    have h2 : a * 2 ^ 100 ≤ (b * 2 ^ 100) * 2 ^ 100 := Nat.mul_le_mul_right _ hhiN
    have h3 : n * b ≤ (2 ^ 200) * b := by
      calc n * b ≤ (b * 2 ^ 100) * 2 ^ 100 := le_trans h1 h2
        _ = (2 ^ 200) * b := by ring
    have h4 : n ≤ 2 ^ 200 := Nat.le_of_mul_le_mul_right h3 hbpos
    calc n ≤ 2 ^ 200 := h4
      _ < 2 ^ 300 := by norm_num
  obtain ⟨hk1, hk2⟩ := nlog2F_correct 300 n hn1 hn2
  set k : ℕ := nlog2F 300 n with hk
  -- Nat-level sandwich: 2^k * b ≤ a * 2^100 < 2^(k+1) * b
  have hNlow : 2 ^ k * b ≤ a * 2 ^ 100 := by
    calc 2 ^ k * b ≤ n * b := Nat.mul_le_mul_right _ hk1
      _ ≤ a * 2 ^ 100 := Nat.div_mul_le_self _ _
  have hNhigh : a * 2 ^ 100 < 2 ^ (k + 1) * b := by
    have hdm := Nat.div_add_mod (a * 2 ^ 100) b
    have hmlt : (a * 2 ^ 100) % b < b := Nat.mod_lt _ hbpos
    rw [← hn] at hdm
    calc a * 2 ^ 100 = b * n + (a * 2 ^ 100) % b := hdm.symm
      _ < b * n + b := Nat.add_lt_add_left hmlt _
      _ = (n + 1) * b := by ring
      _ ≤ 2 ^ (k + 1) * b := Nat.mul_le_mul_right _ (by omega)
  -- back to ℚ
  have hqExp : qExp q = (k : ℤ) - 100 := by
    unfold qExp; rw [← ha, ← hb, ← hn, ← hk]
  have hQlow : qpow2 ((k : ℤ) - 100) ≤ q := by
    have h1 : ((2 ^ k : ℕ) : ℚ) * (b : ℚ) ≤ (a : ℚ) * ((2 ^ 100 : ℕ) : ℚ) := by
      exact_mod_cast hNlow
    have h2 : ((2 ^ k : ℕ) : ℚ) / ((2 ^ 100 : ℕ) : ℚ) ≤ (a : ℚ) / (b : ℚ) := by
      rw [div_le_div_iff (by positivity) hb0]; linarith
    have h3 : qpow2 ((k : ℤ) - 100) = ((2 ^ k : ℕ) : ℚ) / ((2 ^ 100 : ℕ) : ℚ) := by
      have hmul := qpow2_mul_qpow2 ((k : ℤ) - 100) 100
      rw [sub_add_cancel, qpow2_natCast] at hmul
      rw [eq_div_iff (by positivity : ((2 ^ 100 : ℕ) : ℚ) ≠ 0), ← h100]
      exact hmul
    rw [h3, hq]; exact h2
  have hQhigh : q < qpow2 ((k : ℤ) - 100 + 1) := by
    have h1 : (a : ℚ) * ((2 ^ 100 : ℕ) : ℚ) < ((2 ^ (k + 1) : ℕ) : ℚ) * (b : ℚ) := by
      exact_mod_cast hNhigh
    have h2 : (a : ℚ) / (b : ℚ) < ((2 ^ (k + 1) : ℕ) : ℚ) / ((2 ^ 100 : ℕ) : ℚ) := by
      rw [div_lt_div_iff hb0 (by positivity)]; linarith
    have h3 : qpow2 ((k : ℤ) - 100 + 1) = ((2 ^ (k + 1) : ℕ) : ℚ) / ((2 ^ 100 : ℕ) : ℚ) := by
      have heq : (k : ℤ) - 100 + 1 = ((k + 1 : ℕ) : ℤ) - 100 := by push_cast; ring
      rw [heq]
      have hmul := qpow2_mul_qpow2 (((k + 1 : ℕ) : ℤ) - 100) 100
      rw [sub_add_cancel, qpow2_natCast] at hmul
      rw [eq_div_iff (by positivity : ((2 ^ 100 : ℕ) : ℚ) ≠ 0), ← h100]
      exact hmul
    rw [h3, hq]; exact h2
  rw [hqExp]
  exact ⟨hQlow, hQhigh⟩

lemma qpow2_zero : qpow2 0 = 1 := by
  unfold qpow2; norm_num

lemma rne_sub_le (q : ℚ) : |((rne q : ℤ) : ℚ) - q| ≤ 1 / 2 := by
  unfold rne
  have hf1 : ((⌊q⌋ : ℤ) : ℚ) ≤ q := Int.floor_le q
  have hf2 : q < ((⌊q⌋ : ℤ) : ℚ) + 1 := Int.lt_floor_add_one q
  by_cases h1 : q - ⌊q⌋ < 1 / 2
  · rw [if_pos h1, abs_le]
    push_cast at h1 ⊢
    constructor <;> linarith
  · rw [if_neg h1]
    by_cases h2 : 1 / 2 < q - ⌊q⌋
    · rw [if_pos h2, abs_le]
      push_cast at h2 ⊢
      constructor <;> linarith
    · rw [if_neg h2]
      have heq : q - ⌊q⌋ = 1 / 2 := by push_cast at h1 h2 ⊢; linarith
      by_cases h3 : ⌊q⌋ % 2 = 0
      · rw [if_pos h3, abs_le]; push_cast at heq ⊢; constructor <;> linarith
      · rw [if_neg h3, abs_le]; push_cast at heq ⊢; constructor <;> linarith

lemma rne_intCast (z : ℤ) : rne ((z : ℤ) : ℚ) = z := by
  unfold rne
  rw [Int.floor_intCast]
  norm_num

lemma qExp_unique (q : ℚ) (k : ℤ) (h0 : 0 < q) (hlo : qpow2 (-100) ≤ q) (hhi : q ≤ qpow2 100)
    (hk1 : qpow2 k ≤ q) (hk2 : q < qpow2 (k + 1)) : qExp q = k := by
  obtain ⟨hE1, hE2⟩ := qExp_correct q h0 hlo hhi
  by_contra hne
  rcases lt_or_gt_of_ne hne with hlt | hgt
  · have : qExp q + 1 ≤ k := by omega
    have : qpow2 (qExp q + 1) ≤ qpow2 k := qpow2_mono this
    linarith
  · have : k + 1 ≤ qExp q := by omega
    have : qpow2 (k + 1) ≤ qpow2 (qExp q) := qpow2_mono this
    linarith

lemma roundPos_err (q : ℚ) : |roundPos q - q| ≤ qpow2 (qExp q - 53) := by
  unfold roundPos
  set E : ℤ := qExp q with hE
  set s : ℚ := q * qpow2 (52 - E) with hs
  have hq : q = s * qpow2 (E - 52) := by
    rw [hs, mul_assoc, qpow2_mul_qpow2]
    norm_num [qpow2_zero]
  have h1 : |((rne s : ℤ) : ℚ) - s| ≤ 1 / 2 := rne_sub_le s
  have h2 : ((rne s : ℤ) : ℚ) * qpow2 (E - 52) - q = (((rne s : ℤ) : ℚ) - s) * qpow2 (E - 52) := by
    rw [hq]; ring
  rw [h2, abs_mul, abs_of_pos (qpow2_pos _)]
  calc |((rne s : ℤ) : ℚ) - s| * qpow2 (E - 52) ≤ (1 / 2) * qpow2 (E - 52) := by
        exact mul_le_mul_of_nonneg_right h1 (le_of_lt (qpow2_pos _))
    _ = qpow2 (-1) * qpow2 (E - 52) := by
        unfold qpow2; norm_num
    _ = qpow2 (E - 53) := by rw [qpow2_mul_qpow2]; ring_nf

lemma round64_pos_eq (q : ℚ) (h0 : 0 < q) : round64 q = roundPos q := by
  unfold round64
  rw [if_neg (ne_of_gt h0), if_pos h0]

lemma round64_err (q : ℚ) (h0 : 0 < q) : |round64 q - q| ≤ qpow2 (qExp q - 53) := by
  rw [round64_pos_eq q h0]; exact roundPos_err q

lemma round64_err_of_lt (q : ℚ) (k : ℤ) (h0 : 0 < q) (hlo : qpow2 (-100) ≤ q)
    (hk : q < qpow2 k) (hk100 : k ≤ 100) : |round64 q - q| ≤ qpow2 (k - 54) := by
  have hhi : q ≤ qpow2 100 := le_of_lt (lt_of_lt_of_le hk (qpow2_mono hk100))
  obtain ⟨hE1, _⟩ := qExp_correct q h0 hlo hhi
  have hElt : qExp q < k := qpow2_lt_qpow2 (lt_of_le_of_lt hE1 hk)
  calc |round64 q - q| ≤ qpow2 (qExp q - 53) := round64_err q h0
    _ ≤ qpow2 (k - 54) := qpow2_mono (by omega)

lemma round64_zero : round64 0 = 0 := by
  unfold round64; norm_num

lemma round64_natCast (n : ℕ) (h : n < 2 ^ 53) : f64 n = (n : ℚ) := by
  unfold f64
  by_cases hn0 : n = 0
  · subst hn0; norm_num [round64_zero]
  · have hpos : 0 < n := Nat.pos_of_ne_zero hn0
    have h0 : (0 : ℚ) < (n : ℚ) := by exact_mod_cast hpos
    have hlo : qpow2 (-100) ≤ (n : ℚ) := by
      calc qpow2 (-100) ≤ qpow2 0 := qpow2_mono (by norm_num)
        _ = 1 := qpow2_zero
        _ ≤ (n : ℚ) := by exact_mod_cast hpos
    have hhi : (n : ℚ) ≤ qpow2 100 := by
      have h100 : qpow2 (100 : ℤ) = ((2 ^ 100 : ℕ) : ℚ) := qpow2_natCast 100
      rw [h100]
      have hle : n ≤ 2 ^ 100 := le_trans (le_of_lt h) (by norm_num)
      exact_mod_cast hle
    have hk : (n : ℚ) < qpow2 53 := by
      have h53 : qpow2 (53 : ℤ) = ((2 ^ 53 : ℕ) : ℚ) := qpow2_natCast 53
      rw [h53]; exact_mod_cast h
    obtain ⟨hE1, _⟩ := qExp_correct (n : ℚ) h0 hlo hhi
    have hE52 : qExp (n : ℚ) ≤ 52 := by
      have := qpow2_lt_qpow2 (lt_of_le_of_lt hE1 hk); omega
    rw [round64_pos_eq _ h0]
    unfold roundPos
    set E : ℤ := qExp (n : ℚ) with hE
    have hm : (52 - E).toNat = (52 - E) := Int.toNat_of_nonneg (by omega)
    have hsc : (n : ℚ) * qpow2 (52 - E) = (((n * 2 ^ (52 - E).toNat : ℕ) : ℤ) : ℚ) := by
      unfold qpow2
      rw [if_pos (by omega : (0:ℤ) ≤ 52 - E)]
      push_cast
      ring
    rw [hsc, rne_intCast]
    have : (((n * 2 ^ (52 - E).toNat : ℕ) : ℤ) : ℚ) = (n : ℚ) * qpow2 (52 - E) := by rw [hsc]
    rw [this, mul_assoc, qpow2_mul_qpow2]
    norm_num [qpow2_zero]

lemma round64_pos (q : ℚ) (h0 : 0 < q) (hlo : qpow2 (-100) ≤ q) (hhi : q ≤ qpow2 100) :
    0 < round64 q := by
  rw [round64_pos_eq q h0]
  unfold roundPos
  obtain ⟨hE1, _⟩ := qExp_correct q h0 hlo hhi
  set E : ℤ := qExp q with hE
  set s : ℚ := q * qpow2 (52 - E) with hs
  have hs52 : qpow2 52 ≤ s := by
    calc qpow2 52 = qpow2 E * qpow2 (52 - E) := by rw [qpow2_mul_qpow2]; ring_nf
      _ ≤ q * qpow2 (52 - E) := mul_le_mul_of_nonneg_right hE1 (le_of_lt (qpow2_pos _))
  have h1 : |((rne s : ℤ) : ℚ) - s| ≤ 1 / 2 := rne_sub_le s
  have h2 : (0 : ℚ) < ((rne s : ℤ) : ℚ) := by
    have habs := abs_le.mp h1
    have : qpow2 52 = ((2 ^ 52 : ℕ) : ℚ) := qpow2_natCast 52
    rw [this] at hs52
    have hbig : ((2 ^ 52 : ℕ) : ℚ) ≥ 1 := by exact_mod_cast Nat.one_le_two_pow
    linarith [habs.1]
  exact mul_pos h2 (qpow2_pos _)

lemma round64_eval (q : ℚ) (k z : ℤ) (h0 : 0 < q) (hlo : qpow2 (-100) ≤ q) (hhi : q ≤ qpow2 100)
    (hk1 : qpow2 k ≤ q) (hk2 : q < qpow2 (k + 1)) (hz : rne (q * qpow2 (52 - k)) = z) :
    round64 q = (z : ℚ) * qpow2 (k - 52) := by
  rw [round64_pos_eq q h0]
  unfold roundPos
  rw [qExp_unique q k h0 hlo hhi hk1 hk2, hz]

lemma qpow2_negNatCast (k : ℕ) : qpow2 (-(k : ℤ)) = ((2 ^ k : ℕ) : ℚ)⁻¹ := by
  rcases Nat.eq_zero_or_pos k with hk | hk
  · subst hk; norm_num [qpow2_zero]
  · unfold qpow2
    rw [if_neg (by omega), neg_neg, Int.toNat_natCast]

lemma pyTrunc_natCast (n : ℕ) : pyTrunc (n : ℚ) = (n : ℤ) := by
  unfold pyTrunc
  rw [if_pos (by positivity)]
  exact_mod_cast Int.floor_natCast n

lemma pyTrunc_of_between (N : ℕ) (q : ℚ) (h1 : (N : ℚ) ≤ q) (h2 : q < (N : ℚ) + 1) :
    pyTrunc q = (N : ℤ) := by
  unfold pyTrunc
  rw [if_pos (le_trans (by positivity) h1)]
  rw [Int.floor_eq_iff]
  constructor
  · exact_mod_cast h1
  · push_cast
    exact h2

/-- Truncation of a value whose distance to the rational `q` is at most `δ`,
when `q` lies in `[N + 1/100, N + 99/100]`: the result is exactly `N`. -/
lemma pyTrunc_round64_frac (N : ℕ) (q δ : ℚ) (herr : |round64 q - q| ≤ δ) (hδ : δ ≤ 1 / 200)
    (h1 : (N : ℚ) + 1 / 100 ≤ q) (h2 : q ≤ (N : ℚ) + 99 / 100) :
    pyTrunc (round64 q) = (N : ℤ) := by
  obtain ⟨ha, hb⟩ := abs_le.mp herr
  apply pyTrunc_of_between
  · linarith
  · linarith

/-- Truncation of a nonnegative value within `δ < 1/2` of the integer `N`:
the result is `N` or `N - 1`. -/
lemma pyTrunc_near_int (N : ℕ) (P δ : ℚ) (h0 : 0 ≤ P) (h1 : (N : ℚ) - δ ≤ P)
    (h2 : P ≤ (N : ℚ) + δ) (hδ : δ < 1 / 2) :
    (N : ℤ) - 1 ≤ pyTrunc P ∧ pyTrunc P ≤ (N : ℤ) := by
  unfold pyTrunc
  rw [if_pos h0]
  have hf1 : ((⌊P⌋ : ℤ) : ℚ) ≤ P := Int.floor_le P
  have hf2 : P < ((⌊P⌋ : ℤ) : ℚ) + 1 := Int.lt_floor_add_one P
  constructor
  · have hq : (N : ℚ) - 2 < ((⌊P⌋ : ℤ) : ℚ) := by linarith
    have hz : (N : ℤ) - 2 < ⌊P⌋ := by exact_mod_cast hq
    omega
  · have hq : ((⌊P⌋ : ℤ) : ℚ) < (N : ℚ) + 1 := by linarith
    have hz : ⌊P⌋ < (N : ℤ) + 1 := by exact_mod_cast hq
    omega

/-- Key arithmetic fact behind the percentage-resize step: for sizes in the
realistic range, `int(n / 100.0)` computed in binary64 equals `⌊n / 100⌋`
exactly (a single correctly rounded division cannot cross an integer). -/
lemma trunc_fdiv_100 (n : ℕ) (hn : n ≤ 2 ^ 40) :
    (pyTrunc (fdiv (f64 n) 100)).toNat = n / 100 := by
  by_cases hn0 : n = 0
  · subst hn0
    have hf : f64 0 = (0 : ℚ) := round64_natCast 0 (by norm_num)
    unfold fdiv
    rw [hf]
    norm_num [round64_zero, pyTrunc]
  · have hpos : 0 < n := Nat.pos_of_ne_zero hn0
    have hf : f64 n = (n : ℚ) := round64_natCast n (by omega)
    unfold fdiv
    rw [hf]
    set N : ℕ := n / 100 with hN
    set m : ℕ := n % 100 with hm
    have hdm : 100 * N + m = n := by rw [hN, hm]; exact Nat.div_add_mod n 100
    have hmlt : m < 100 := Nat.mod_lt n (by norm_num)
    by_cases hm0 : m = 0
    · -- exact multiple of 100: the quotient is an integer, rounded exactly
      have hq : (n : ℚ) / 100 = (N : ℚ) := by
        have hnn : n = 100 * N := by omega
        rw [hnn]; push_cast; ring
      rw [hq, show round64 (N : ℚ) = f64 N from rfl,
        round64_natCast N (by have := Nat.div_le_self n 100; omega),
        pyTrunc_natCast, Int.toNat_natCast]
    · -- the quotient has fractional part in [1/100, 99/100]
      have hm1 : 1 ≤ m := Nat.pos_of_ne_zero hm0
      set q : ℚ := (n : ℚ) / 100 with hq
      have hqlow : (N : ℚ) + 1 / 100 ≤ q := by
        have h1 : (100 * N + 1 : ℕ) ≤ n := by omega
        have hc : ((100 * N + 1 : ℕ) : ℚ) ≤ (n : ℚ) := by exact_mod_cast h1
        push_cast at hc
        rw [hq]; linarith
      have hqhigh : q ≤ (N : ℚ) + 99 / 100 := by
        have h1 : n ≤ 100 * N + 99 := by omega
        have hc : (n : ℚ) ≤ ((100 * N + 99 : ℕ) : ℚ) := by exact_mod_cast h1
        push_cast at hc
        rw [hq]; linarith
      have h0 : 0 < q := by
        have : (0 : ℚ) ≤ (N : ℚ) := by positivity
        linarith
      have hlo : qpow2 (-100) ≤ q := by
        have h7 : qpow2 (-7 : ℤ) = ((2 ^ 7 : ℕ) : ℚ)⁻¹ := qpow2_negNatCast 7
        have h1 : qpow2 (-100 : ℤ) ≤ qpow2 (-7 : ℤ) := qpow2_mono (by norm_num)
        have h2 : ((2 ^ 7 : ℕ) : ℚ)⁻¹ ≤ q := by
          have : (0 : ℚ) ≤ (N : ℚ) := by positivity
          have : (1 : ℚ) / 128 ≤ (N : ℚ) + 1 / 100 := by linarith
          have hval : ((2 ^ 7 : ℕ) : ℚ)⁻¹ = 1 / 128 := by norm_num
          linarith
        linarith
      have hk : q < qpow2 40 := by
        have h40 : qpow2 (40 : ℤ) = ((2 ^ 40 : ℕ) : ℚ) := qpow2_natCast 40
        have hAv : ((2 ^ 40 : ℕ) : ℚ) = 1099511627776 := by norm_num
        rw [h40, hAv]
        have hc : (n : ℚ) ≤ 1099511627776 := by
          have := hn
          have hcc : (n : ℚ) ≤ ((2 ^ 40 : ℕ) : ℚ) := by exact_mod_cast hn
          rw [hAv] at hcc
          exact hcc
        rw [hq]
        linarith
      have herr : |round64 q - q| ≤ qpow2 (40 - 54) := round64_err_of_lt q 40 h0 hlo hk
        (by norm_num)
      have hδ : qpow2 (40 - 54 : ℤ) ≤ 1 / 200 := by
        have h14 : qpow2 (-14 : ℤ) = ((2 ^ 14 : ℕ) : ℚ)⁻¹ := qpow2_negNatCast 14
        have : (40 - 54 : ℤ) = (-14 : ℤ) := by norm_num
        rw [this, h14]
        norm_num
      rw [pyTrunc_round64_frac N q (qpow2 (40 - 54)) herr hδ hqlow hqhigh, Int.toNat_natCast]

/-- Numeric value of the rounding-step bound `2 ^ (-53)`. -/
lemma qpow2_m53 : qpow2 (1 - 54 : ℤ) = (9007199254740992 : ℚ)⁻¹ := by
  have h53 : qpow2 (-(53 : ℕ) : ℤ) = ((2 ^ 53 : ℕ) : ℚ)⁻¹ := qpow2_negNatCast 53
  have he : (1 - 54 : ℤ) = (-(53 : ℕ) : ℤ) := by norm_num
  rw [he, h53]
  norm_num

/-- Numeric value of the rounding-step bound `2 ^ (-22)`. -/
lemma qpow2_m22 : qpow2 (32 - 54 : ℤ) = (4194304 : ℚ)⁻¹ := by
  have h22 : qpow2 (-(22 : ℕ) : ℤ) = ((2 ^ 22 : ℕ) : ℚ)⁻¹ := qpow2_negNatCast 22
  have he : (32 - 54 : ℤ) = (-(22 : ℕ) : ℤ) := by norm_num
  rw [he, h22]
  norm_num

/-- Lower end of the normal range is far below `1/128`. -/
lemma qpow2_m100_le : qpow2 (-100 : ℤ) ≤ 1 / 128 := by
  have h7 : qpow2 (-(7 : ℕ) : ℤ) = ((2 ^ 7 : ℕ) : ℚ)⁻¹ := qpow2_negNatCast 7
  have h1 : qpow2 (-100 : ℤ) ≤ qpow2 (-(7 : ℕ) : ℤ) := qpow2_mono (by norm_num)
  rw [h7] at h1
  have h2 : ((2 ^ 7 : ℕ) : ℚ)⁻¹ = 1 / 128 := by norm_num
  rw [h2] at h1
  exact h1

/-- Width (resp. height) of the percentage-resize step:
`max(1, int(x * r / 100.0))` from `src/app.py` lines 49-50 (`x * r` is exact
integer arithmetic in Python; only the division is a float operation). -/
def resizeDim (x r : ℕ) : ℕ := max 1 (pyTrunc (fdiv (f64 (x * r)) 100)).toNat

/-- Dimensions after the percentage-resize step (`src/app.py` lines 47-51),
guarded by `if resize_pct and resize_pct != 100`; PIL's `resize` returns an
image of exactly the requested dimensions. -/
def resizeStep (w h r : ℕ) : ℕ × ℕ :=
  if r ≠ 0 ∧ r ≠ 100 then (resizeDim w r, resizeDim h r) else (w, h)

/-- Center-crop width `crop_w = int(w * (crop_pct / 100.0))` (`src/app.py`
lines 40-42): `crop_pct / 100.0` is rounded to binary64 before the
multiplication, so the value suffers a double rounding. -/
def cropW (x p : ℕ) : ℕ := (pyTrunc (fmul (f64 x) (fdiv (f64 p) 100))).toNat

/-- Crop margin `left = max(0, (w - crop_w) // 2)` (`src/app.py` lines 43-44);
over ℕ the truncated subtraction makes the `max 0` redundant, which agrees
with Python since `crop_w ≤ w` (part of the C2 theorem). -/
def cropLeft (x p : ℕ) : ℕ := (x - cropW x p) / 2

/-- Dimensions after the center-crop step (`src/app.py` lines 37-45): PIL's
`crop((left, top, left + crop_w, top + crop_h))` returns an image of exactly
`crop_w × crop_h` pixels. -/
def centerCropStep (w h p : ℕ) : ℕ × ℕ :=
  if 0 < p then (cropW w p, cropW h p) else (w, h)

/-- The double rounding in the center-crop width `int(x * (p / 100.0))`:
the result is `⌊x*p/100⌋` or one less, and exactly `⌊x*p/100⌋` whenever
`x*p` is not a multiple of `100`. -/
lemma cropW_bounds (x p : ℕ) (hx : x ≤ 2 ^ 31) (hp1 : 1 ≤ p) (hp2 : p ≤ 100) :
    cropW x p ≤ x * p / 100 ∧ x * p / 100 ≤ cropW x p + 1 ∧
      (¬ (100 ∣ x * p) → cropW x p = x * p / 100) := by
  have hfp : f64 p = (p : ℚ) := round64_natCast p (by omega)
  set q1 : ℚ := (p : ℚ) / 100 with hq1
  have hpQ1 : (1 : ℚ) ≤ (p : ℚ) := by exact_mod_cast hp1
  have hpQ2 : (p : ℚ) ≤ 100 := by exact_mod_cast hp2
  have h01 : 0 < q1 := by rw [hq1]; positivity
  have hq1lo : 1 / 100 ≤ q1 := by rw [hq1]; linarith
  have hq1hi : q1 ≤ 1 := by rw [hq1]; linarith
  have hlo1 : qpow2 (-100) ≤ q1 := le_trans qpow2_m100_le (by linarith)
  have h2v : qpow2 (1 : ℤ) = ((2 ^ 1 : ℕ) : ℚ) := qpow2_natCast 1
  have hk1 : q1 < qpow2 1 := by rw [h2v]; push_cast; linarith
  have hhi1 : q1 ≤ qpow2 100 := by
    have : qpow2 (1 : ℤ) ≤ qpow2 100 := qpow2_mono (by norm_num)
    linarith [hk1]
  have herr1 : |round64 q1 - q1| ≤ qpow2 (1 - 54) := round64_err_of_lt q1 1 h01 hlo1 hk1
    (by norm_num)
  rw [qpow2_m53] at herr1
  have hcp_pos : 0 < round64 q1 := round64_pos q1 h01 hlo1 hhi1
  have hcpu : fdiv (f64 p) 100 = round64 q1 := by rw [hfp]; unfold fdiv; rw [hq1]
  by_cases hx0 : x = 0
  · subst hx0
    have hf0 : f64 0 = (0 : ℚ) := round64_natCast 0 (by norm_num)
    unfold cropW
    rw [hf0]
    unfold fmul
    rw [zero_mul, round64_zero]
    unfold pyTrunc
    norm_num
  · have hx1 : 1 ≤ x := Nat.pos_of_ne_zero hx0
    have hfx : f64 x = (x : ℚ) := round64_natCast x (by
      have : (2 : ℕ) ^ 31 < 2 ^ 53 := by norm_num
      omega)
    have hxQ : (x : ℚ) ≤ 2147483648 := by
      have hc : (x : ℚ) ≤ ((2 ^ 31 : ℕ) : ℚ) := by exact_mod_cast hx
      have : ((2 ^ 31 : ℕ) : ℚ) = 2147483648 := by norm_num
      linarith
    have hxQ1 : (1 : ℚ) ≤ (x : ℚ) := by exact_mod_cast hx1
    set cp : ℚ := round64 q1 with hcpdef
    clear_value cp
    set v : ℚ := (x : ℚ) * cp with hv
    clear_value v
    set e : ℚ := ((x * p : ℕ) : ℚ) / 100 with he
    clear_value e
    have hee : e = (x : ℚ) * q1 := by rw [he, hq1]; push_cast; ring
    have herr_v : |v - e| ≤ (4194304 : ℚ)⁻¹ := by
      have hdiff : v - e = (x : ℚ) * (cp - q1) := by rw [hv, hee]; ring
      rw [hdiff, abs_mul, abs_of_nonneg (by positivity : (0:ℚ) ≤ (x : ℚ))]
      calc (x : ℚ) * |cp - q1| ≤ 2147483648 * (9007199254740992 : ℚ)⁻¹ := by
            apply mul_le_mul hxQ herr1 (abs_nonneg _) (by norm_num)
        _ ≤ (4194304 : ℚ)⁻¹ := by norm_num
    have habs_v := abs_le.mp herr_v
    have he_le : e ≤ (x : ℚ) := by
      rw [hee]
      nlinarith [hq1hi, hxQ1]
    have he_ge : 1 / 100 ≤ e := by
      rw [hee]
      nlinarith [hq1lo, hxQ1, h01]
    have hv0 : 0 < v := by
      rw [hv]
      exact mul_pos (by linarith) hcp_pos
    have hvlo : qpow2 (-100) ≤ v := by
      have : (1 : ℚ) / 128 ≤ v := by linarith [habs_v.1]
      linarith [qpow2_m100_le]
    have hvhi : v < qpow2 32 := by
      have h32 : qpow2 (32 : ℤ) = ((2 ^ 32 : ℕ) : ℚ) := qpow2_natCast 32
      have : ((2 ^ 32 : ℕ) : ℚ) = 4294967296 := by norm_num
      rw [h32, this]
      linarith [habs_v.2]
    have herr_P : |round64 v - v| ≤ (4194304 : ℚ)⁻¹ := by
      have := round64_err_of_lt v 32 hv0 hvlo hvhi (by norm_num)
      rw [qpow2_m22] at this
      exact this
    have habs_P := abs_le.mp herr_P
    set P : ℚ := round64 v with hP
    clear_value P
    have hPe : |P - e| ≤ (2097152 : ℚ)⁻¹ := by
      rw [abs_le]
      constructor
      · linarith [habs_v.1, habs_P.1]
      · linarith [habs_v.2, habs_P.2]
    have habs_Pe := abs_le.mp hPe
    have hcw : cropW x p = (pyTrunc P).toNat := by
      unfold cropW
      rw [hcpu, hfx]
      unfold fmul
      rw [← hv, ← hP]
    set N : ℕ := x * p / 100 with hN
    set m : ℕ := x * p % 100 with hm
    have hdm : 100 * N + m = x * p := by rw [hN, hm]; exact Nat.div_add_mod (x * p) 100
    have hmlt : m < 100 := Nat.mod_lt _ (by norm_num)
    by_cases hm0 : m = 0
    · -- x*p is a multiple of 100; the float value may land just below N
      have hdvd : 100 ∣ x * p := ⟨N, by omega⟩
      have heN : e = (N : ℚ) := by
        rw [he]
        have hxp : x * p = 100 * N := by omega
        rw [hxp]; push_cast; ring
      have hP0 : 0 ≤ P := by
        have hhiv : v ≤ qpow2 100 := by
          have h1 : qpow2 (32 : ℤ) ≤ qpow2 100 := qpow2_mono (by norm_num)
          linarith
        have h2 := round64_pos v hv0 hvlo hhiv
        rw [← hP] at h2
        exact le_of_lt h2
      have hb1 : (N : ℚ) - (2097152 : ℚ)⁻¹ ≤ P := by rw [← heN]; linarith [habs_Pe.1]
      have hb2 : P ≤ (N : ℚ) + (2097152 : ℚ)⁻¹ := by rw [← heN]; linarith [habs_Pe.2]
      obtain ⟨hb3, hb4⟩ := pyTrunc_near_int N P ((2097152 : ℚ)⁻¹) hP0 hb1 hb2 (by norm_num)
      refine ⟨?_, ?_, ?_⟩
      · rw [hcw]; omega
      · rw [hcw]; omega
      · intro hcon; exact absurd hdvd hcon
    · -- fractional part at least 1/100: the truncation recovers ⌊x*p/100⌋
      have hm1 : 1 ≤ m := Nat.pos_of_ne_zero hm0
      have helow : (N : ℚ) + 1 / 100 ≤ e := by
        have h1 : (100 * N + 1 : ℕ) ≤ x * p := by omega
        have hc : ((100 * N + 1 : ℕ) : ℚ) ≤ ((x * p : ℕ) : ℚ) := by exact_mod_cast h1
        push_cast at hc
        rw [he]; push_cast; linarith
      have hehigh : e ≤ (N : ℚ) + 99 / 100 := by
        have h1 : x * p ≤ 100 * N + 99 := by omega
        have hc : ((x * p : ℕ) : ℚ) ≤ ((100 * N + 99 : ℕ) : ℚ) := by exact_mod_cast h1
        push_cast at hc
        rw [he]; push_cast; linarith
      have htr : pyTrunc P = (N : ℤ) := by
        apply pyTrunc_of_between
        · linarith [habs_Pe.1]
        · linarith [habs_Pe.2]
      have hfin : cropW x p = N := by rw [hcw, htr, Int.toNat_natCast]
      exact ⟨by omega, by omega, fun _ => hfin⟩

lemma cropW_le (x p : ℕ) (hx : x ≤ 2 ^ 31) (hp1 : 1 ≤ p) (hp2 : p ≤ 100) : cropW x p ≤ x := by
  obtain ⟨h1, _, _⟩ := cropW_bounds x p hx hp1 hp2
  have h2 : x * p / 100 ≤ x := by
    have h3 : x * p ≤ x * 100 := Nat.mul_le_mul_left x hp2
    have h4 : x * p / 100 ≤ x * 100 / 100 := Nat.div_le_div_right h3
    have h5 : x * 100 / 100 = x := by omega
    omega
  omega

/-- Claim C3: for every image of width `W` and height `H` (PIL dimensions are
bounded by `2^31`) and every `resize_percent r ∈ [10, 200]` with `r ≠ 100`,
the percentage-resize step of `process_image_for_upload` yields an image of
dimensions `max(1, ⌊W*r/100⌋) × max(1, ⌊H*r/100⌋)`: the single correctly
rounded binary64 division `W * r / 100.0` truncates to exactly `⌊W*r/100⌋`. -/
theorem resize_step_dims (w h r : ℕ) (hw : w ≤ 2 ^ 31) (hh : h ≤ 2 ^ 31)
    (hr1 : 10 ≤ r) (hr2 : r ≤ 200) (hr3 : r ≠ 100) :
    resizeStep w h r = (max 1 (w * r / 100), max 1 (h * r / 100)) := by
  unfold resizeStep
  rw [if_pos ⟨by omega, hr3⟩]
  unfold resizeDim
  rw [trunc_fdiv_100 (w * r) (by
      calc w * r ≤ 2 ^ 31 * 200 := Nat.mul_le_mul hw hr2
        _ ≤ 2 ^ 40 := by norm_num),
    trunc_fdiv_100 (h * r) (by
      calc h * r ≤ 2 ^ 31 * 200 := Nat.mul_le_mul hh hr2
        _ ≤ 2 ^ 40 := by norm_num)]

/-- Witness for C3 at a concrete input: a 200×100 image resized to 50%. -/
theorem resize_step_dims_witness : resizeStep 200 100 50 = (100, 50) := by
  have h := resize_step_dims 200 100 50 (by norm_num) (by norm_num) (by norm_num)
    (by norm_num) (by norm_num)
  simpa using h

/-- Concrete evaluation of the binary64 double rounding at `W = 100, p = 29`:
`29 / 100` rounds down to `5224175567749775 / 2^54`, then `100 * that`
rounds to `8162774324609023 / 2^48 = 28.999999999999996…`, truncating to 28,
not `⌊100 * 29 / 100⌋ = 29`. -/
lemma cropW_100_29 : cropW 100 29 = 28 := by
  have hf29 : f64 29 = (29 : ℚ) := round64_natCast 29 (by norm_num)
  have hf100 : f64 100 = (100 : ℚ) := round64_natCast 100 (by norm_num)
  have h54v : qpow2 (-54 : ℤ) = (18014398509481984 : ℚ)⁻¹ := by
    rw [show (-54 : ℤ) = (-(54 : ℕ) : ℤ) by norm_num, qpow2_negNatCast 54]
    norm_num
  have h48v : qpow2 (-48 : ℤ) = (281474976710656 : ℚ)⁻¹ := by
    rw [show (-48 : ℤ) = (-(48 : ℕ) : ℤ) by norm_num, qpow2_negNatCast 48]
    norm_num
  have h2v : qpow2 (-2 : ℤ) = (4 : ℚ)⁻¹ := by
    rw [show (-2 : ℤ) = (-(2 : ℕ) : ℤ) by norm_num, qpow2_negNatCast 2]
    norm_num
  have h1v : qpow2 (-1 : ℤ) = (2 : ℚ)⁻¹ := by
    rw [show (-1 : ℤ) = (-(1 : ℕ) : ℤ) by norm_num, qpow2_negNatCast 1]
    norm_num
  have h100v : qpow2 (100 : ℤ) = ((2 ^ 100 : ℕ) : ℚ) := qpow2_natCast 100
  have h54p : qpow2 (54 : ℤ) = ((2 ^ 54 : ℕ) : ℚ) := qpow2_natCast 54
  have h48p : qpow2 (48 : ℤ) = ((2 ^ 48 : ℕ) : ℚ) := qpow2_natCast 48
  have h4p : qpow2 (4 : ℤ) = ((2 ^ 4 : ℕ) : ℚ) := qpow2_natCast 4
  have h5p : qpow2 (5 : ℤ) = ((2 ^ 5 : ℕ) : ℚ) := qpow2_natCast 5
  -- Step 1: cp = round64 (29/100) = 5224175567749775 / 2^54
  have hcp : round64 ((29 : ℚ) / 100) = (5224175567749775 : ℚ) * qpow2 (-2 - 52) := by
    apply round64_eval ((29 : ℚ) / 100) (-2) 5224175567749775 (by norm_num)
      (le_trans qpow2_m100_le (by norm_num))
      (by rw [h100v]; norm_num)
      (by rw [h2v]; norm_num)
      (by rw [show (-2 + 1 : ℤ) = -1 by norm_num, h1v]; norm_num)
    rw [show (52 - (-2) : ℤ) = 54 by norm_num, h54p]
    unfold rne
    have hfl : ⌊(29 : ℚ) / 100 * ((2 ^ 54 : ℕ) : ℚ)⌋ = 5224175567749775 := by norm_num
    rw [hfl, if_pos (by push_cast; norm_num)]
  have hcpv : round64 ((29 : ℚ) / 100) = (5224175567749775 : ℚ) / 18014398509481984 := by
    rw [hcp, show (-2 - 52 : ℤ) = -54 by norm_num, h54v]
    norm_num
  -- Step 2: P = round64 (100 * cp) = 8162774324609023 / 2^48
  have hP : round64 ((100 : ℚ) * ((5224175567749775 : ℚ) / 18014398509481984)) =
      (8162774324609023 : ℚ) * qpow2 (4 - 52) := by
    apply round64_eval _ 4 8162774324609023 (by norm_num)
      (le_trans qpow2_m100_le (by norm_num))
      (by rw [h100v]; norm_num)
      (by rw [h4p]; norm_num)
      (by rw [show (4 + 1 : ℤ) = 5 by norm_num, h5p]; norm_num)
    rw [show (52 - 4 : ℤ) = 48 by norm_num, h48p]
    unfold rne
    have hfl : ⌊(100 : ℚ) * ((5224175567749775 : ℚ) / 18014398509481984) *
        ((2 ^ 48 : ℕ) : ℚ)⌋ = 8162774324609023 := by norm_num
    rw [hfl, if_pos (by push_cast; norm_num)]
  have hPv : round64 ((100 : ℚ) * ((5224175567749775 : ℚ) / 18014398509481984)) =
      (8162774324609023 : ℚ) / 281474976710656 := by
    rw [hP, show (4 - 52 : ℤ) = -48 by norm_num, h48v]
    norm_num
  -- Step 3: truncate
  unfold cropW
  unfold fdiv
  rw [hf29, hf100, hcpv]
  unfold fmul
  rw [hPv]
  unfold pyTrunc
  rw [if_pos (by norm_num)]
  have hfl : ⌊(8162774324609023 : ℚ) / 281474976710656⌋ = 28 := by norm_num
  rw [hfl]
  rfl

/-- Claim C2 (counterexample): on a 100×100 image with `crop_percent = 29`
the center-crop step does not produce width `⌊W*p/100⌋ = 29`; the binary64
computation `int(100 * (29 / 100.0))` yields 28. -/
theorem center_crop_claim_counterexample :
    (centerCropStep 100 100 29).1 = 28 ∧ (centerCropStep 100 100 29).1 ≠ 100 * 29 / 100 := by
  have h : (centerCropStep 100 100 29).1 = 28 := by
    unfold centerCropStep
    rw [if_pos (by norm_num)]
    exact cropW_100_29
  exact ⟨h, by rw [h]; norm_num⟩

/-- Claim C2 (amended): for `0 < p ≤ 100` the center-crop step yields
dimensions `crop_w × crop_h` where `crop_w = int(W * (p / 100.0))` is computed
in binary64 arithmetic; this equals `⌊W*p/100⌋` whenever `W*p` is not a
multiple of `100` and in general lies in `{⌊W*p/100⌋ - 1, ⌊W*p/100⌋}` (the
double rounding can land one below — see the counterexample `W = 100, p = 29`).
The rectangle is centered with `left = ⌊(W - crop_w)/2⌋`,
`top = ⌊(H - crop_h)/2⌋` (equal margins up to floor rounding), and the crop
never exceeds the image. -/
theorem center_crop_step_spec (w h p : ℕ) (hw : w ≤ 2 ^ 31) (hh : h ≤ 2 ^ 31)
    (hp1 : 0 < p) (hp2 : p ≤ 100) :
    centerCropStep w h p = (cropW w p, cropW h p) ∧
    cropW w p ≤ w * p / 100 ∧ w * p / 100 ≤ cropW w p + 1 ∧
    cropW h p ≤ h * p / 100 ∧ h * p / 100 ≤ cropW h p + 1 ∧
    (¬ 100 ∣ w * p → cropW w p = w * p / 100) ∧
    (¬ 100 ∣ h * p → cropW h p = h * p / 100) ∧
    cropLeft w p = (w - cropW w p) / 2 ∧ cropLeft h p = (h - cropW h p) / 2 ∧
    cropW w p ≤ w ∧ cropW h p ≤ h := by
  obtain ⟨hwa, hwb, hwc⟩ := cropW_bounds w p hw hp1 hp2
  obtain ⟨hha, hhb, hhc⟩ := cropW_bounds h p hh hp1 hp2
  refine ⟨?_, hwa, hwb, hha, hhb, hwc, hhc, rfl, rfl,
    cropW_le w p hw hp1 hp2, cropW_le h p hh hp1 hp2⟩
  unfold centerCropStep
  rw [if_pos hp1]

/-- Witness for the amended C2 at a concrete input (`200×100`, `p = 50`). -/
theorem center_crop_step_spec_witness :
    centerCropStep 200 100 50 = (cropW 200 50, cropW 100 50) :=
  (center_crop_step_spec 200 100 50 (by norm_num) (by norm_num) (by norm_num) (by norm_num)).1

/-- Numeric value of `2 ^ (0 - 54)`. -/
lemma qpow2_m54 : qpow2 (0 - 54 : ℤ) = (18014398509481984 : ℚ)⁻¹ := by
  rw [show (0 - 54 : ℤ) = (-(54 : ℕ) : ℤ) by norm_num, qpow2_negNatCast 54]
  norm_num

/-- Numeric value of `2 ^ (-24)`. -/
lemma qpow2_m24 : qpow2 (-24 : ℤ) = (16777216 : ℚ)⁻¹ := by
  rw [show (-24 : ℤ) = (-(24 : ℕ) : ℤ) by norm_num, qpow2_negNatCast 24]
  norm_num

/-- Numeric value of `2 ^ (25 - 54)`. -/
lemma qpow2_m29 : qpow2 (25 - 54 : ℤ) = (536870912 : ℚ)⁻¹ := by
  rw [show (25 - 54 : ℤ) = (-(29 : ℕ) : ℤ) by norm_num, qpow2_negNatCast 29]
  norm_num

/-- Numeric value of `2 ^ (-25)`. -/
lemma qpow2_m25 : qpow2 (-25 : ℤ) = (33554432 : ℚ)⁻¹ := by
  rw [show (-25 : ℤ) = (-(25 : ℕ) : ℤ) by norm_num, qpow2_negNatCast 25]
  norm_num

/-- Scale factor `scale = max_dim / float(max(pil.size))` (`src/app.py` line
55). -/
def capScale (m cap : ℕ) : ℚ := fdiv (f64 cap) (f64 m)

/-- Capped dimension `max(1, int(x * scale))` (`src/app.py` lines 56-57). -/
def capDim (x m cap : ℕ) : ℕ := max 1 (pyTrunc (fmul (f64 x) (capScale m cap))).toNat

/-- Dimensions after the dimension-cap step (`src/app.py` lines 53-59),
guarded by `if max_dim and max(pil.size) > max_dim`; the source resizes twice
to the same `(new_w, new_h)`, which is dimension-equivalent to once. -/
def capStep (w h cap : ℕ) : ℕ × ℕ :=
  if cap ≠ 0 ∧ cap < max w h then (capDim w (max w h) cap, capDim h (max w h) cap)
  else (w, h)

set_option maxHeartbeats 2000000 in
/-- Error analysis of one capped dimension `max(1, int(x * scale))` where
`scale = round64(cap / m)` and `x ≤ m`: the result never exceeds `cap`, is
within one pixel of exact uniform scaling `x * cap / m`, and for the larger
dimension (`x = m`) it is `cap` or `cap - 1`. -/
lemma capDim_bounds (x m cap : ℕ) (hxm : x ≤ m) (hm : m ≤ 2 ^ 24) (hc1 : 0 < cap)
    (hcm : cap < m) :
    capDim x m cap ≤ cap ∧
    |((capDim x m cap : ℕ) : ℚ) - (x : ℚ) * cap / m| ≤ 1 ∧
    (x = m → cap - 1 ≤ capDim x m cap) := by
  have hm2 : 2 ≤ m := by omega
  have hfc : f64 cap = (cap : ℚ) := round64_natCast cap (by
    have : (2 : ℕ) ^ 24 < 2 ^ 53 := by norm_num
    omega)
  have hfm : f64 m = (m : ℚ) := round64_natCast m (by
    have : (2 : ℕ) ^ 24 < 2 ^ 53 := by norm_num
    omega)
  have hm0 : (0 : ℚ) < (m : ℚ) := by exact_mod_cast (by omega : 0 < m)
  have hmQhi : (m : ℚ) ≤ 16777216 := by
    have hc : (m : ℚ) ≤ ((2 ^ 24 : ℕ) : ℚ) := by exact_mod_cast hm
    have : ((2 ^ 24 : ℕ) : ℚ) = 16777216 := by norm_num
    linarith
  have hcQ1 : (1 : ℚ) ≤ (cap : ℚ) := by exact_mod_cast hc1
  have hcQm : (cap : ℚ) < (m : ℚ) := by exact_mod_cast hcm
  set q0 : ℚ := (cap : ℚ) / (m : ℚ) with hq0
  have hq0m : q0 * (m : ℚ) = (cap : ℚ) := by
    rw [hq0]; field_simp
  have h00 : 0 < q0 := by rw [hq0]; positivity
  have hq0lt1 : q0 < 1 := by
    rw [hq0, div_lt_one hm0]; exact hcQm
  have hq0lo : (16777216 : ℚ)⁻¹ ≤ q0 := by
    rw [hq0, le_div_iff₀ hm0]
    calc (16777216 : ℚ)⁻¹ * (m : ℚ) ≤ (16777216 : ℚ)⁻¹ * 16777216 := by
          apply mul_le_mul_of_nonneg_left hmQhi (by norm_num)
      _ = 1 := by norm_num
      _ ≤ (cap : ℚ) := hcQ1
  have hlo_s : qpow2 (-100) ≤ q0 := by
    have h1 : qpow2 (-100 : ℤ) ≤ qpow2 (-24 : ℤ) := qpow2_mono (by norm_num)
    rw [qpow2_m24] at h1
    linarith
  have hk_s : q0 < qpow2 0 := by rw [qpow2_zero]; exact hq0lt1
  have herr_s : |round64 q0 - q0| ≤ (18014398509481984 : ℚ)⁻¹ := by
    have h := round64_err_of_lt q0 0 h00 hlo_s hk_s (by norm_num)
    rw [qpow2_m54] at h
    exact h
  have hs_pos : 0 < round64 q0 := round64_pos q0 h00 hlo_s (by
    have : qpow2 (0 : ℤ) ≤ qpow2 100 := qpow2_mono (by norm_num)
    linarith [hk_s])
  set s : ℚ := round64 q0 with hsdef
  clear_value s
  have habs_s := abs_le.mp herr_s
  have hscale : capScale m cap = s := by
    unfold capScale
    rw [hfc, hfm]
    unfold fdiv
    rw [← hq0, ← hsdef]
  by_cases hx0 : x = 0
  · subst hx0
    have hf0 : f64 0 = (0 : ℚ) := round64_natCast 0 (by norm_num)
    have hcd0 : capDim 0 m cap = 1 := by
      unfold capDim
      rw [hscale, hf0]
      unfold fmul
      rw [zero_mul, round64_zero]
      unfold pyTrunc
      rw [if_pos (by norm_num)]
      simp
    rw [hcd0]
    refine ⟨hc1, ?_, fun hxe => absurd hxe.symm (by omega)⟩
    norm_num
  · have hx1 : 1 ≤ x := Nat.pos_of_ne_zero hx0
    have hfx : f64 x = (x : ℚ) := round64_natCast x (by
      have : (2 : ℕ) ^ 24 < 2 ^ 53 := by norm_num
      omega)
    have hxQ1 : (1 : ℚ) ≤ (x : ℚ) := by exact_mod_cast hx1
    have hxQhi : (x : ℚ) ≤ 16777216 := by
      have hc : (x : ℚ) ≤ (m : ℚ) := by exact_mod_cast hxm
      linarith
    set v : ℚ := (x : ℚ) * s with hv
    clear_value v
    set e : ℚ := (x : ℚ) * q0 with he
    have herr_v : |v - e| ≤ (1073741824 : ℚ)⁻¹ := by
      have hdiff : v - e = (x : ℚ) * (s - q0) := by rw [hv, he]; ring
      rw [hdiff, abs_mul, abs_of_nonneg (by positivity : (0:ℚ) ≤ (x : ℚ))]
      calc (x : ℚ) * |s - q0| ≤ 16777216 * (18014398509481984 : ℚ)⁻¹ := by
            apply mul_le_mul hxQhi herr_s (abs_nonneg _) (by norm_num)
        _ ≤ (1073741824 : ℚ)⁻¹ := by norm_num
    have habs_v := abs_le.mp herr_v
    have hem : e * (m : ℚ) = (x : ℚ) * (cap : ℚ) := by
      rw [he, mul_assoc, hq0m]
    have he_hi : e ≤ (cap : ℚ) := by
      have hxc : (x : ℚ) * (cap : ℚ) ≤ (m : ℚ) * (cap : ℚ) := by
        apply mul_le_mul_of_nonneg_right _ (by positivity)
        exact_mod_cast hxm
      nlinarith [hem, hm0]
    have he_pos : 0 < e := by rw [he]; positivity
    have hv0 : 0 < v := by rw [hv]; exact mul_pos (by linarith) hs_pos
    have hvlo : qpow2 (-100) ≤ v := by
      have hsv : s ≤ v := by
        rw [hv]
        have h1 : 0 ≤ ((x : ℚ) - 1) * s := mul_nonneg (by linarith) (le_of_lt hs_pos)
        have h2 : (x : ℚ) * s - s = ((x : ℚ) - 1) * s := by ring
        linarith
      have hslo : (33554432 : ℚ)⁻¹ ≤ s := by linarith [habs_s.1, hq0lo]
      have h1 : qpow2 (-100 : ℤ) ≤ qpow2 (-25 : ℤ) := qpow2_mono (by norm_num)
      rw [qpow2_m25] at h1
      linarith
    have hvhi : v < qpow2 25 := by
      have h25 : qpow2 (25 : ℤ) = ((2 ^ 25 : ℕ) : ℚ) := qpow2_natCast 25
      have h25v : ((2 ^ 25 : ℕ) : ℚ) = 33554432 := by norm_num
      rw [h25, h25v]
      have hcap1 : (cap : ℚ) + 1 ≤ (m : ℚ) := by exact_mod_cast hcm
      have : (cap : ℚ) ≤ 16777215 := by linarith
      linarith [habs_v.2, he_hi]
    have herr_P : |round64 v - v| ≤ (536870912 : ℚ)⁻¹ := by
      have h := round64_err_of_lt v 25 hv0 hvlo hvhi (by norm_num)
      rw [qpow2_m29] at h
      exact h
    have habs_P := abs_le.mp herr_P
    have hP_pos : 0 < round64 v := round64_pos v hv0 hvlo (by
      have : qpow2 (25 : ℤ) ≤ qpow2 100 := qpow2_mono (by norm_num)
      linarith)
    set P : ℚ := round64 v with hP
    clear_value P
    have hPe : |P - e| ≤ (268435456 : ℚ)⁻¹ := by
      rw [abs_le]
      constructor
      · linarith [habs_v.1, habs_P.1]
      · linarith [habs_v.2, habs_P.2]
    have habs_Pe := abs_le.mp hPe
    have hcd : capDim x m cap = max 1 (pyTrunc P).toNat := by
      unfold capDim
      rw [hscale, hfx]
      unfold fmul
      rw [← hv, ← hP]
    set cd : ℕ := capDim x m cap with hcddef
    clear_value cd
    set K : ℕ := x * cap / m with hK
    set f : ℕ := x * cap % m with hf
    have hKm : m * K + f = x * cap := by rw [hK, hf]; exact Nat.div_add_mod (x * cap) m
    have hflt : f < m := Nat.mod_lt _ (by omega)
    clear_value K f
    have hKcap : K ≤ cap := by
      have h1 : x * cap ≤ m * cap := Nat.mul_le_mul_right cap hxm
      have h2 : x * cap / m ≤ m * cap / m := Nat.div_le_div_right h1
      have h3 : m * cap / m = cap := Nat.mul_div_cancel_left cap (by omega)
      omega
    have heKf : e = (K : ℚ) + (f : ℚ) / (m : ℚ) := by
      have hc : ((m * K + f : ℕ) : ℚ) = ((x * cap : ℕ) : ℚ) := by exact_mod_cast hKm
      push_cast at hc
      have : e * (m : ℚ) = ((K : ℚ) + (f : ℚ) / (m : ℚ)) * (m : ℚ) := by
        rw [hem]; field_simp; linarith [hc]
      exact mul_right_cancel₀ (ne_of_gt hm0) this
    have heq_e : (x : ℚ) * (cap : ℚ) / (m : ℚ) = e := by
      rw [he, hq0]; ring
    clear hsdef hP hcddef hscale hfc hfm hfx
    clear_value e
    clear herr_s habs_s herr_v habs_v herr_P hPe habs_P hem he_hi he_pos hv0 hvlo hvhi hlo_s
      hk_s hq0lt1 h00 hq0m hq0lo hs_pos hv he hq0
    clear s v q0
    by_cases hf0 : f = 0
    · -- x*cap is an exact multiple of m: the product can round just below K
      have heK : e = (K : ℚ) := by rw [heKf, hf0]; norm_num
      have hb1 : (K : ℚ) - (268435456 : ℚ)⁻¹ ≤ P := by rw [← heK]; linarith [habs_Pe.1]
      have hb2 : P ≤ (K : ℚ) + (268435456 : ℚ)⁻¹ := by rw [← heK]; linarith [habs_Pe.2]
      obtain ⟨hb3, hb4⟩ := pyTrunc_near_int K P ((268435456 : ℚ)⁻¹) (le_of_lt hP_pos)
        hb1 hb2 (by norm_num)
      have hcdK1 : K ≤ cd + 1 := by rw [hcd]; omega
      have hcdK2 : cd ≤ max 1 K := by rw [hcd]; omega
      refine ⟨by omega, ?_, ?_⟩
      · rw [heq_e, heK]
        have hc1' : ((cd : ℕ) : ℚ) ≤ (max 1 K : ℕ) := by exact_mod_cast hcdK2
        have hc2' : (K : ℚ) ≤ ((cd : ℕ) : ℚ) + 1 := by exact_mod_cast hcdK1
        have hmax : ((max 1 K : ℕ) : ℚ) ≤ (K : ℚ) + 1 := by
          have : max 1 K ≤ K + 1 := by omega
          exact_mod_cast this
        rw [abs_le]
        constructor <;> linarith
      · intro hxe
        have hfK : K = cap := by
          rw [hK, hxe]
          exact Nat.mul_div_cancel_left cap (by omega)
        rw [hcd]
        omega
    · -- fractional part at least 1/m, strictly larger than the float error
      have hf1 : 1 ≤ f := Nat.pos_of_ne_zero hf0
      have hfQ1 : (1 : ℚ) ≤ (f : ℚ) := by exact_mod_cast hf1
      have hfQm : (f : ℚ) ≤ (m : ℚ) - 1 := by
        have : (f : ℚ) + 1 ≤ (m : ℚ) := by exact_mod_cast hflt
        linarith
      have hfrac_lo : (16777216 : ℚ)⁻¹ ≤ (f : ℚ) / (m : ℚ) := by
        rw [le_div_iff₀ hm0]
        calc (16777216 : ℚ)⁻¹ * (m : ℚ) ≤ (16777216 : ℚ)⁻¹ * 16777216 := by
              apply mul_le_mul_of_nonneg_left hmQhi (by norm_num)
          _ = 1 := by norm_num
          _ ≤ (f : ℚ) := hfQ1
      have hfrac_hi : (f : ℚ) / (m : ℚ) ≤ 1 - (16777216 : ℚ)⁻¹ := by
        rw [div_le_iff₀ hm0]
        have hstep : (16777216 : ℚ)⁻¹ * (m : ℚ) ≤ 1 := by
          calc (16777216 : ℚ)⁻¹ * (m : ℚ) ≤ (16777216 : ℚ)⁻¹ * 16777216 := by
                apply mul_le_mul_of_nonneg_left hmQhi (by norm_num)
            _ = 1 := by norm_num
        have hexp : (1 - (16777216 : ℚ)⁻¹) * (m : ℚ) =
            (m : ℚ) - (16777216 : ℚ)⁻¹ * (m : ℚ) := by ring
        linarith [hfQm, hstep]
      have htr : pyTrunc P = (K : ℤ) := by
        apply pyTrunc_of_between
        · have : (K : ℚ) + (16777216 : ℚ)⁻¹ ≤ e := by rw [heKf]; linarith
          linarith [habs_Pe.1]
        · have : e ≤ (K : ℚ) + 1 - (16777216 : ℚ)⁻¹ := by rw [heKf]; linarith
          linarith [habs_Pe.2]
      have hcdv : cd = max 1 K := by rw [hcd, htr, Int.toNat_natCast]
      refine ⟨by omega, ?_, ?_⟩
      · rw [heq_e, hcdv]
        have hmax1 : ((max 1 K : ℕ) : ℚ) ≤ (K : ℚ) + 1 := by
          have : max 1 K ≤ K + 1 := by omega
          exact_mod_cast this
        have hmax2 : (K : ℚ) ≤ ((max 1 K : ℕ) : ℚ) := by
          have : K ≤ max 1 K := by omega
          exact_mod_cast this
        have heb1 : (K : ℚ) ≤ e := by
          rw [heKf]
          have : (0 : ℚ) ≤ (f : ℚ) / (m : ℚ) := by positivity
          linarith
        have heb2 : e ≤ (K : ℚ) + 1 := by
          rw [heKf]
          linarith [hfrac_hi]
        rw [abs_le]
        constructor <;> linarith
      · intro hxe
        exfalso
        apply hf0
        rw [hf, hxe]
        exact Nat.mul_mod_right m cap

/-- Claim C4: when the larger dimension exceeds `max_dimension_pixels`, the
dimension-cap step rescales so that the larger output dimension equals the
cap exactly up to the downward rounding of `int(...)` (it is `cap` or
`cap - 1`), neither output dimension exceeds the cap, and each output
dimension is within one pixel of exact uniform scaling by `cap / max(W, H)`
(aspect ratio preserved within one pixel).  Dimensions are assumed below
`2 ^ 24`, far beyond any image PIL can hold in memory. -/
theorem dimension_cap_spec (w h cap : ℕ) (hw : w ≤ 2 ^ 24) (hh : h ≤ 2 ^ 24)
    (hc : 0 < cap) (hgt : cap < max w h) :
    capStep w h cap = (capDim w (max w h) cap, capDim h (max w h) cap) ∧
    cap - 1 ≤ max (capDim w (max w h) cap) (capDim h (max w h) cap) ∧
    max (capDim w (max w h) cap) (capDim h (max w h) cap) ≤ cap ∧
    |((capDim w (max w h) cap : ℕ) : ℚ) - (w : ℚ) * cap / ((max w h : ℕ) : ℚ)| ≤ 1 ∧
    |((capDim h (max w h) cap : ℕ) : ℚ) - (h : ℚ) * cap / ((max w h : ℕ) : ℚ)| ≤ 1 := by
  have hmb : max w h ≤ 2 ^ 24 := by omega
  obtain ⟨hw1, hw2, hw3⟩ := capDim_bounds w (max w h) cap (le_max_left w h) hmb hc hgt
  obtain ⟨hh1, hh2, hh3⟩ := capDim_bounds h (max w h) cap (le_max_right w h) hmb hc hgt
  refine ⟨?_, ?_, by omega, hw2, hh2⟩
  · unfold capStep
    rw [if_pos ⟨by omega, hgt⟩]
  · rcases Nat.le_total w h with hwh | hwh
    · have hmh : max w h = h := by omega
      have := hh3 hmh.symm
      omega
    · have hmw : max w h = w := by omega
      have := hw3 hmw.symm
      omega

/-- Witness for C4 at a concrete input: a 3200×1600 image capped at 1600. -/
theorem dimension_cap_spec_witness :
    capStep 3200 1600 1600 =
      (capDim 3200 (max 3200 1600) 1600, capDim 1600 (max 3200 1600) 1600) :=
  (dimension_cap_spec 3200 1600 1600 (by norm_num) (by norm_num) (by norm_num)
    (by norm_num)).1

/-- Downscaled dimension `max(1, int(x * 0.9))` (`src/app.py` lines 79-80);
the literal `0.9` denotes the binary64 value nearest to `9/10`. -/
def downDim (x : ℕ) : ℕ := max 1 (pyTrunc (fmul (f64 x) (round64 (9 / 10)))).toNat

/-- One downscale-by-0.9 pass on the dimensions (`src/app.py` lines 79-81). -/
def downscaleDims (p : ℕ × ℕ) : ℕ × ℕ := (downDim p.1, downDim p.2)

/-- The quality-lowering loop (`src/app.py` lines 69-73): while the encoding
exceeds the target and `quality >= 30`, lower the quality by 5 and re-encode.
`enc w h q` abstracts PIL's JPEG encoder `pil.save(..., quality=q)` as a
function of the image dimensions and the quality; the loop variant is the
strictly decreasing quality, so any `fuel` with `q ≤ 5 * fuel + 25` computes
the exact Python loop (`qualityLoopGo_fuel`). -/
def qualityLoopGo (enc : ℕ → ℕ → ℕ → List ℕ) (w h target : ℕ) :
    ℕ → ℕ → List ℕ → ℕ × List ℕ
  | 0, q, data => (q, data)
  | fuel + 1, q, data =>
      if target < data.length ∧ 30 ≤ q then
        qualityLoopGo enc w h target fuel (q - 5) (enc w h (q - 5))
      else (q, data)

/-- Sizes of every encoding attempted by the quality loop, in order,
including the initial quality-95 encoding. -/
def qualityAttemptsGo (enc : ℕ → ℕ → ℕ → List ℕ) (w h target : ℕ) :
    ℕ → ℕ → List ℕ → List ℕ
  | 0, _, data => [data.length]
  | fuel + 1, q, data =>
      if target < data.length ∧ 30 ≤ q then
        data.length :: qualityAttemptsGo enc w h target fuel (q - 5) (enc w h (q - 5))
      else [data.length]

/-- The bounded downscale-and-retry loop (`src/app.py` lines 76-87):
`for _ in range(3)`, shrink to 90%, drop quality by 5 (floored at 20),
re-encode, and stop early once the target is met. -/
def downscaleLoop (enc : ℕ → ℕ → ℕ → List ℕ) (target : ℕ) :
    ℕ → ℕ × ℕ → ℕ → List ℕ → (ℕ × ℕ) × ℕ × List ℕ
  | 0, pil, q, data => (pil, q, data)
  | fuel + 1, pil, q, _ =>
      if (enc (downscaleDims pil).1 (downscaleDims pil).2 (max 20 (q - 5))).length ≤ target then
        (downscaleDims pil, max 20 (q - 5),
          enc (downscaleDims pil).1 (downscaleDims pil).2 (max 20 (q - 5)))
      else
        downscaleLoop enc target fuel (downscaleDims pil) (max 20 (q - 5))
          (enc (downscaleDims pil).1 (downscaleDims pil).2 (max 20 (q - 5)))

/-- Sizes of every encoding attempted by the downscale loop, in order. -/
def downscaleSizes (enc : ℕ → ℕ → ℕ → List ℕ) (target : ℕ) :
    ℕ → ℕ × ℕ → ℕ → List ℕ
  | 0, _, _ => []
  | fuel + 1, pil, q =>
      if (enc (downscaleDims pil).1 (downscaleDims pil).2 (max 20 (q - 5))).length ≤ target then
        [(enc (downscaleDims pil).1 (downscaleDims pil).2 (max 20 (q - 5))).length]
      else
        (enc (downscaleDims pil).1 (downscaleDims pil).2 (max 20 (q - 5))).length ::
          downscaleSizes enc target fuel (downscaleDims pil) (max 20 (q - 5))

/-- The size-budget compression tail of `process_image_for_upload`
(`src/app.py` lines 61-89): encode at quality 95, step the quality down to
the floor, then at most three downscale-and-retry passes; returns the final
byte payload and the final image dimensions (the pair Python returns). -/
def compressToTarget (enc : ℕ → ℕ → ℕ → List ℕ) (pil : ℕ × ℕ) (max_kb : ℕ) :
    List ℕ × (ℕ × ℕ) :=
  let target := max 1 (max_kb * 1024)
  let d0 := enc pil.1 pil.2 95
  let st := qualityLoopGo enc pil.1 pil.2 target 95 95 d0
  if target < st.2.length then
    let r := downscaleLoop enc target 3 pil st.1 st.2
    (r.2.2, r.1)
  else (st.2, pil)

/-- Sizes of every encoding attempt made by `compressToTarget`, in order. -/
def attemptSizes (enc : ℕ → ℕ → ℕ → List ℕ) (pil : ℕ × ℕ) (max_kb : ℕ) : List ℕ :=
  let target := max 1 (max_kb * 1024)
  let d0 := enc pil.1 pil.2 95
  let st := qualityLoopGo enc pil.1 pil.2 target 95 95 d0
  qualityAttemptsGo enc pil.1 pil.2 target 95 95 d0 ++
    (if target < st.2.length then downscaleSizes enc target 3 pil st.1 else [])

lemma qualityLoopGo_fuel (enc : ℕ → ℕ → ℕ → List ℕ) (w h target : ℕ) :
    ∀ f1 f2 q data, q ≤ 5 * f1 + 25 → q ≤ 5 * f2 + 25 →
      qualityLoopGo enc w h target f1 q data = qualityLoopGo enc w h target f2 q data := by
  intro f1
  induction f1 with
  | zero =>
    intro f2 q data h1 h2
    cases f2 with
    | zero => rfl
    | succ g =>
      unfold qualityLoopGo
      rw [if_neg (by omega)]
  | succ f ih =>
    intro f2 q data h1 h2
    cases f2 with
    | zero =>
      unfold qualityLoopGo
      rw [if_neg (by omega)]
    | succ g =>
      unfold qualityLoopGo
      by_cases hc : target < data.length ∧ 30 ≤ q
      · rw [if_pos hc, if_pos hc]
        exact ih g (q - 5) (enc w h (q - 5)) (by omega) (by omega)
      · rw [if_neg hc, if_neg hc]

lemma qualityLoopGo_last (enc : ℕ → ℕ → ℕ → List ℕ) (w h target : ℕ) :
    ∀ fuel q data,
      (qualityAttemptsGo enc w h target fuel q data).getLastD 0 =
        (qualityLoopGo enc w h target fuel q data).2.length ∧
      qualityAttemptsGo enc w h target fuel q data ≠ [] := by
  intro fuel
  induction fuel with
  | zero => intro q data; exact ⟨rfl, by simp [qualityAttemptsGo]⟩
  | succ f ih =>
    intro q data
    unfold qualityAttemptsGo qualityLoopGo
    by_cases hc : target < data.length ∧ 30 ≤ q
    · rw [if_pos hc, if_pos hc]
      obtain ⟨ih1, ih2⟩ := ih (q - 5) (enc w h (q - 5))
      constructor
      · rw [List.getLastD_cons]
        rcases hl : qualityAttemptsGo enc w h target f (q - 5) (enc w h (q - 5)) with _ | ⟨a, t⟩
        · exact absurd hl ih2
        · rw [hl] at ih1
          simp only [List.getLastD_cons] at ih1 ⊢
          exact ih1
      · simp
    · rw [if_neg hc, if_neg hc]
      exact ⟨rfl, by simp⟩

lemma qualityLoopGo_over (enc : ℕ → ℕ → ℕ → List ℕ) (w h target : ℕ) :
    ∀ fuel q data, target < (qualityLoopGo enc w h target fuel q data).2.length →
      ∀ s ∈ qualityAttemptsGo enc w h target fuel q data, target < s := by
  intro fuel
  induction fuel with
  | zero =>
    intro q data hov s hs
    simp only [qualityAttemptsGo, List.mem_singleton] at hs
    subst hs
    exact hov
  | succ f ih =>
    intro q data hov s hs
    unfold qualityAttemptsGo at hs
    unfold qualityLoopGo at hov
    by_cases hc : target < data.length ∧ 30 ≤ q
    · rw [if_pos hc] at hs hov
      rcases List.mem_cons.mp hs with hs1 | hs2
      · subst hs1; exact hc.1
      · exact ih (q - 5) (enc w h (q - 5)) hov s hs2
    · rw [if_neg hc] at hs hov
      simp only [List.mem_singleton] at hs
      subst hs
      exact hov

lemma qualityLoopGo_floor (enc : ℕ → ℕ → ℕ → List ℕ) (w h target : ℕ) :
    ∀ fuel q data, q % 5 = 0 → 25 ≤ q → q ≤ 5 * fuel + 25 →
      target < (qualityLoopGo enc w h target fuel q data).2.length →
      (qualityLoopGo enc w h target fuel q data).1 = 25 := by
  intro fuel
  induction fuel with
  | zero =>
    intro q data h5 h25 hle hov
    have : q = 25 := by omega
    subst this
    rfl
  | succ f ih =>
    intro q data h5 h25 hle hov
    unfold qualityLoopGo at hov ⊢
    by_cases hc : target < data.length ∧ 30 ≤ q
    · rw [if_pos hc] at hov ⊢
      exact ih (q - 5) (enc w h (q - 5)) (by omega) (by omega) (by omega) hov
    · rw [if_neg hc] at hov ⊢
      simp only
      have h30 : ¬ 30 ≤ q := by
        intro h30
        exact hc ⟨by simpa using hov, h30⟩
      omega

lemma downscaleLoop_last (enc : ℕ → ℕ → ℕ → List ℕ) (target : ℕ) :
    ∀ fuel pil q data,
      (downscaleLoop enc target fuel pil q data).2.2.length =
        (downscaleSizes enc target fuel pil q).getLastD data.length := by
  intro fuel
  induction fuel with
  | zero => intro pil q data; rfl
  | succ f ih =>
    intro pil q data
    unfold downscaleLoop downscaleSizes
    by_cases hc :
        (enc (downscaleDims pil).1 (downscaleDims pil).2 (max 20 (q - 5))).length ≤ target
    · rw [if_pos hc, if_pos hc]
      rfl
    · rw [if_neg hc, if_neg hc]
      rw [ih (downscaleDims pil) (max 20 (q - 5))
        (enc (downscaleDims pil).1 (downscaleDims pil).2 (max 20 (q - 5)))]
      rw [List.getLastD_cons]

lemma downscaleLoop_dims (enc : ℕ → ℕ → ℕ → List ℕ) (target : ℕ) :
    ∀ fuel pil q data, target < (downscaleLoop enc target fuel pil q data).2.2.length →
      (downscaleLoop enc target fuel pil q data).1 = downscaleDims^[fuel] pil ∧
      (downscaleLoop enc target fuel pil q data).2.2.length =
        (downscaleLoop enc target fuel pil q data).2.2.length := by
  intro fuel
  induction fuel with
  | zero => intro pil q data hov; exact ⟨rfl, rfl⟩
  | succ f ih =>
    intro pil q data hov
    unfold downscaleLoop at hov ⊢
    by_cases hc :
        (enc (downscaleDims pil).1 (downscaleDims pil).2 (max 20 (q - 5))).length ≤ target
    · rw [if_pos hc] at hov
      simp only at hov
      omega
    · rw [if_neg hc] at hov ⊢
      obtain ⟨ih1, _⟩ := ih (downscaleDims pil) (max 20 (q - 5))
        (enc (downscaleDims pil).1 (downscaleDims pil).2 (max 20 (q - 5))) hov
      refine ⟨?_, rfl⟩
      rw [ih1, Function.iterate_succ_apply]

lemma downscaleSizes_over (enc : ℕ → ℕ → ℕ → List ℕ) (target : ℕ) :
    ∀ fuel pil q data, target < (downscaleLoop enc target fuel pil q data).2.2.length →
      ∀ s ∈ downscaleSizes enc target fuel pil q, target < s := by
  intro fuel
  induction fuel with
  | zero =>
    intro pil q data hov s hs
    simp [downscaleSizes] at hs
  | succ f ih =>
    intro pil q data hov s hs
    unfold downscaleLoop at hov
    unfold downscaleSizes at hs
    by_cases hc :
        (enc (downscaleDims pil).1 (downscaleDims pil).2 (max 20 (q - 5))).length ≤ target
    · rw [if_pos hc] at hov
      simp only at hov
      omega
    · rw [if_neg hc] at hov hs
      rcases List.mem_cons.mp hs with hs1 | hs2
      · subst hs1; omega
      · exact ih (downscaleDims pil) (max 20 (q - 5))
          (enc (downscaleDims pil).1 (downscaleDims pil).2 (max 20 (q - 5))) hov s hs2

lemma downscaleSizes_ne_nil (enc : ℕ → ℕ → ℕ → List ℕ) (target fuel : ℕ) (pil : ℕ × ℕ)
    (q : ℕ) (h : fuel ≠ 0) : downscaleSizes enc target fuel pil q ≠ [] := by
  cases fuel with
  | zero => exact absurd rfl h
  | succ f =>
    unfold downscaleSizes
    by_cases hc :
        (enc (downscaleDims pil).1 (downscaleDims pil).2 (max 20 (q - 5))).length ≤ target
    · rw [if_pos hc]; simp
    · rw [if_neg hc]; simp

lemma getLastD_append_ne_nil (l1 l2 : List ℕ) (d : ℕ) (h : l2 ≠ []) :
    (l1 ++ l2).getLastD d = l2.getLastD d := by
  rw [List.getLastD_eq_getLast?, List.getLastD_eq_getLast?, List.getLast?_append]
  obtain ⟨x, hx⟩ := Option.isSome_iff_exists.mp (List.getLast?_isSome.mpr h)
  rw [hx]
  rfl

lemma getLastD_irrel (l : List ℕ) (d1 d2 : ℕ) (h : l ≠ []) :
    l.getLastD d1 = l.getLastD d2 := by
  rw [List.getLastD_eq_getLast?, List.getLastD_eq_getLast?]
  obtain ⟨x, hx⟩ := Option.isSome_iff_exists.mp (List.getLast?_isSome.mpr h)
  rw [hx]
  rfl

lemma getLastD_le_of_chain : ∀ (l : List ℕ) (d : ℕ),
    l.Chain' (fun a b => b ≤ a) → ∀ s ∈ l, l.getLastD d ≤ s := by
  intro l
  induction l with
  | nil => intro d hc s hs; simp at hs
  | cons a t ih =>
    intro d hc s hs
    rcases t with _ | ⟨b, t2⟩
    · simp at hs
      subst hs
      simp [List.getLastD_cons]
    · have hab : b ≤ a := (List.chain'_cons.mp hc).1
      have hct : (b :: t2).Chain' (fun a b => b ≤ a) := (List.chain'_cons.mp hc).2
      rw [List.getLastD_cons]
      rcases List.mem_cons.mp hs with hs1 | hs2
      · rw [hs1]
        have hb := ih a hct b (List.mem_cons_self b t2)
        omega
      · exact ih a hct s hs2

/-- Claim C1: for every image, encoder behaviour and size budget, the byte
payload returned by the compression stage of `process_image_for_upload` has
length at most `max_kilobytes * 1024`, or else the bounded retry sequence was
exhausted: the quality loop bottomed out at its floor (final quality 25,
below 30), all three downscale-and-retry passes ran (the returned image is
the triple-downscaled one), and every attempted encoding exceeded the
budget.  What is returned is always the outcome of the final attempt (the
last entry of the attempt-size trace), which is the best attempt achieved
whenever the encoder's successive attempts are non-increasing in size — the
sequence only ever lowers quality and shrinks dimensions.  `enc` abstracts
PIL's JPEG encoder as a function of dimensions and quality. -/
theorem compress_size_budget (enc : ℕ → ℕ → ℕ → List ℕ) (w h max_kb : ℕ) :
    (compressToTarget enc (w, h) max_kb).1.length =
        (attemptSizes enc (w, h) max_kb).getLastD 0 ∧
    ((compressToTarget enc (w, h) max_kb).1.length ≤ max 1 (max_kb * 1024) ∨
      ((qualityLoopGo enc w h (max 1 (max_kb * 1024)) 95 95 (enc w h 95)).1 = 25 ∧
        (compressToTarget enc (w, h) max_kb).2 = downscaleDims^[3] (w, h) ∧
        ∀ s ∈ attemptSizes enc (w, h) max_kb, max 1 (max_kb * 1024) < s)) ∧
    ((attemptSizes enc (w, h) max_kb).Chain' (fun a b => b ≤ a) →
      ∀ s ∈ attemptSizes enc (w, h) max_kb,
        (compressToTarget enc (w, h) max_kb).1.length ≤ s) := by
  have hcompress : compressToTarget enc (w, h) max_kb =
      if max 1 (max_kb * 1024) <
          (qualityLoopGo enc w h (max 1 (max_kb * 1024)) 95 95 (enc w h 95)).2.length then
        ((downscaleLoop enc (max 1 (max_kb * 1024)) 3 (w, h)
            (qualityLoopGo enc w h (max 1 (max_kb * 1024)) 95 95 (enc w h 95)).1
            (qualityLoopGo enc w h (max 1 (max_kb * 1024)) 95 95 (enc w h 95)).2).2.2,
          (downscaleLoop enc (max 1 (max_kb * 1024)) 3 (w, h)
            (qualityLoopGo enc w h (max 1 (max_kb * 1024)) 95 95 (enc w h 95)).1
            (qualityLoopGo enc w h (max 1 (max_kb * 1024)) 95 95 (enc w h 95)).2).1)
      else ((qualityLoopGo enc w h (max 1 (max_kb * 1024)) 95 95 (enc w h 95)).2, (w, h)) :=
    rfl
  have hatt : attemptSizes enc (w, h) max_kb =
      qualityAttemptsGo enc w h (max 1 (max_kb * 1024)) 95 95 (enc w h 95) ++
        (if max 1 (max_kb * 1024) <
            (qualityLoopGo enc w h (max 1 (max_kb * 1024)) 95 95 (enc w h 95)).2.length then
          downscaleSizes enc (max 1 (max_kb * 1024)) 3 (w, h)
            (qualityLoopGo enc w h (max 1 (max_kb * 1024)) 95 95 (enc w h 95)).1
        else []) := rfl
  obtain ⟨hql1, hql2⟩ :=
    qualityLoopGo_last enc w h (max 1 (max_kb * 1024)) 95 95 (enc w h 95)
  by_cases hov : max 1 (max_kb * 1024) <
      (qualityLoopGo enc w h (max 1 (max_kb * 1024)) 95 95 (enc w h 95)).2.length
  · -- the quality loop ended with the encoding still over the target
    rw [hcompress, hatt, if_pos hov, if_pos hov]
    have hds_ne : downscaleSizes enc (max 1 (max_kb * 1024)) 3 (w, h)
        (qualityLoopGo enc w h (max 1 (max_kb * 1024)) 95 95 (enc w h 95)).1 ≠ [] :=
      downscaleSizes_ne_nil enc (max 1 (max_kb * 1024)) 3 (w, h) _ (by norm_num)
    have hlast : (downscaleLoop enc (max 1 (max_kb * 1024)) 3 (w, h)
          (qualityLoopGo enc w h (max 1 (max_kb * 1024)) 95 95 (enc w h 95)).1
          (qualityLoopGo enc w h (max 1 (max_kb * 1024)) 95 95 (enc w h 95)).2).2.2.length =
        (qualityAttemptsGo enc w h (max 1 (max_kb * 1024)) 95 95 (enc w h 95) ++
          downscaleSizes enc (max 1 (max_kb * 1024)) 3 (w, h)
            (qualityLoopGo enc w h (max 1 (max_kb * 1024)) 95 95 (enc w h 95)).1).getLastD
          0 := by
      rw [getLastD_append_ne_nil _ _ _ hds_ne, getLastD_irrel _ 0
        (qualityLoopGo enc w h (max 1 (max_kb * 1024)) 95 95 (enc w h 95)).2.length hds_ne]
      exact downscaleLoop_last enc (max 1 (max_kb * 1024)) 3 (w, h) _ _
    refine ⟨hlast, ?_, ?_⟩
    · by_cases hfin : (downscaleLoop enc (max 1 (max_kb * 1024)) 3 (w, h)
          (qualityLoopGo enc w h (max 1 (max_kb * 1024)) 95 95 (enc w h 95)).1
          (qualityLoopGo enc w h (max 1 (max_kb * 1024)) 95 95
            (enc w h 95)).2).2.2.length ≤ max 1 (max_kb * 1024)
      · exact Or.inl hfin
      · have hfin2 : max 1 (max_kb * 1024) <
            (downscaleLoop enc (max 1 (max_kb * 1024)) 3 (w, h)
              (qualityLoopGo enc w h (max 1 (max_kb * 1024)) 95 95 (enc w h 95)).1
              (qualityLoopGo enc w h (max 1 (max_kb * 1024)) 95 95
                (enc w h 95)).2).2.2.length := by omega
        refine Or.inr ⟨?_, ?_, ?_⟩
        · exact qualityLoopGo_floor enc w h (max 1 (max_kb * 1024)) 95 95 (enc w h 95)
            (by norm_num) (by norm_num) (by norm_num) hov
        · exact (downscaleLoop_dims enc (max 1 (max_kb * 1024)) 3 (w, h) _ _ hfin2).1
        · intro s hs
          rcases List.mem_append.mp hs with hs1 | hs2
          · exact qualityLoopGo_over enc w h (max 1 (max_kb * 1024)) 95 95 (enc w h 95)
              hov s hs1
          · exact downscaleSizes_over enc (max 1 (max_kb * 1024)) 3 (w, h) _ _ hfin2 s hs2
    · intro hch s hs
      rw [hlast]
      exact getLastD_le_of_chain _ 0 hch s hs
  · -- the quality loop met the target (possibly immediately)
    rw [hcompress, hatt, if_neg hov, if_neg hov]
    have hlast : (qualityLoopGo enc w h (max 1 (max_kb * 1024)) 95 95 (enc w h 95)).2.length =
        (qualityAttemptsGo enc w h (max 1 (max_kb * 1024)) 95 95 (enc w h 95) ++
          ([] : List ℕ)).getLastD 0 := by
      rw [List.append_nil]
      exact hql1.symm
    refine ⟨hlast, Or.inl (by
      show (qualityLoopGo enc w h (max 1 (max_kb * 1024)) 95 95 (enc w h 95)).2.length ≤
        max 1 (max_kb * 1024)
      omega), ?_⟩
    intro hch s hs
    rw [hlast]
    exact getLastD_le_of_chain _ 0 hch s hs

/-- Witness for C1 with a concrete encoder whose output always fits: padding
bytes of length 100 at any quality, with a 100 KB budget. -/
theorem compress_size_budget_witness :
    (compressToTarget (fun _ _ _ => List.replicate 100 0) (640, 480) 100).1.length ≤
        max 1 (100 * 1024) ∧
    (∀ s ∈ attemptSizes (fun _ _ _ => List.replicate 100 0) (640, 480) 100,
      (compressToTarget (fun _ _ _ => List.replicate 100 0) (640, 480) 100).1.length ≤ s) := by
  have hth := compress_size_budget (fun _ _ _ => List.replicate 100 0) 640 480 100
  refine ⟨?_, hth.2.2 (by simp [attemptSizes, qualityLoopGo, qualityAttemptsGo])⟩
  rcases hth.2.1 with hle | hex
  · exact hle
  · exact absurd hex.2.2 (by
      intro hall
      have := hall 100 (by simp [attemptSizes, qualityLoopGo, qualityAttemptsGo])
      omega)

/-- Abstract interface to the fallible PIL operations used by
`process_image_for_upload`; any call may fail (`Except.error`).  `decode` is
`Image.open(io.BytesIO(...)).convert('RGB')`, `rotateOp` is
`rotate(angle, expand=True)`, `cropOp` takes the box
`(left, top, right, bottom)`, `resizeOp` the target dimensions, and `encode`
is `save(buf, format='JPEG', quality=q)` returning the buffer contents. -/
structure Codec (Img E : Type) where
  decode : List ℕ → Except E Img
  rotateOp : Img → ℤ → Except E Img
  cropOp : Img → ℕ → ℕ → ℕ → ℕ → Except E Img
  resizeOp : Img → ℕ → ℕ → Except E Img
  widthOf : Img → ℕ
  heightOf : Img → ℕ
  encode : Img → ℕ → Except E (List ℕ)

/-- The quality loop of `src/app.py` lines 69-73 with a fallible encoder. -/
def excQualityLoop {Img E : Type} (C : Codec Img E) (img : Img) (target : ℕ) :
    ℕ → ℕ → List ℕ → Except E (ℕ × List ℕ)
  | 0, q, data => .ok (q, data)
  | fuel + 1, q, data =>
      if target < data.length ∧ 30 ≤ q then do
        let d2 ← C.encode img (q - 5)
        excQualityLoop C img target fuel (q - 5) d2
      else .ok (q, data)

/-- The downscale-and-retry loop of `src/app.py` lines 76-87 with fallible
resize and encode. -/
def excDownscale {Img E : Type} (C : Codec Img E) (target : ℕ) :
    ℕ → Img → ℕ → List ℕ → Except E (Img × ℕ × List ℕ)
  | 0, img, q, data => .ok (img, q, data)
  | fuel + 1, img, q, _ => do
      let img2 ← C.resizeOp img (downDim (C.widthOf img)) (downDim (C.heightOf img))
      let d2 ← C.encode img2 (max 20 (q - 5))
      if d2.length ≤ target then .ok (img2, max 20 (q - 5), d2)
      else excDownscale C target fuel img2 (max 20 (q - 5)) d2

/-- The body of the `try:` block of `process_image_for_upload`
(`src/app.py` lines 30-89) over an abstract codec: decode, rotate (when the
angle is nonzero), center crop (when `crop_pct > 0`), percentage resize
(when `resize_pct` is neither 0 nor 100), the dimension cap (resizing twice
to the same dimensions, as the source does), then the size-budget
compression. -/
def excBody {Img E : Type} (C : Codec Img E) (image_bytes : List ℕ) (rotate : ℤ)
    (crop_pct resize_pct max_kb max_dim : ℕ) : Except E (List ℕ × Img) := do
  let img0 ← C.decode image_bytes
  let img1 ← if rotate ≠ 0 then C.rotateOp img0 rotate else .ok img0
  let img2 ←
    if 0 < crop_pct then
      C.cropOp img1 (cropLeft (C.widthOf img1) crop_pct)
        (cropLeft (C.heightOf img1) crop_pct)
        (cropLeft (C.widthOf img1) crop_pct + cropW (C.widthOf img1) crop_pct)
        (cropLeft (C.heightOf img1) crop_pct + cropW (C.heightOf img1) crop_pct)
    else .ok img1
  let img3 ←
    if resize_pct ≠ 0 ∧ resize_pct ≠ 100 then
      C.resizeOp img2 (resizeDim (C.widthOf img2) resize_pct)
        (resizeDim (C.heightOf img2) resize_pct)
    else .ok img2
  let img4 ←
    if max_dim ≠ 0 ∧ max_dim < max (C.widthOf img3) (C.heightOf img3) then do
      let imgA ← C.resizeOp img3
        (capDim (C.widthOf img3) (max (C.widthOf img3) (C.heightOf img3)) max_dim)
        (capDim (C.heightOf img3) (max (C.widthOf img3) (C.heightOf img3)) max_dim)
      C.resizeOp imgA
        (capDim (C.widthOf img3) (max (C.widthOf img3) (C.heightOf img3)) max_dim)
        (capDim (C.heightOf img3) (max (C.widthOf img3) (C.heightOf img3)) max_dim)
    else .ok img3
  let d0 ← C.encode img4 95
  let st ← excQualityLoop C img4 (max 1 (max_kb * 1024)) 95 95 d0
  if max 1 (max_kb * 1024) < st.2.length then do
    let r ← excDownscale C (max 1 (max_kb * 1024)) 3 img4 st.1 st.2
    return (r.2.2, r.1)
  else return (st.2, img4)

/-- `process_image_for_upload` over the abstract codec: the body runs inside
`try:`, and on any failure the function returns the original bytes with no
decoded image (`src/app.py` lines 30 and 90-92). -/
def process_image_for_upload {Img E : Type} (C : Codec Img E) (image_bytes : List ℕ)
    (rotate : ℤ) (crop_pct resize_pct max_kb max_dim : ℕ) : List ℕ × Option Img :=
  match excBody C image_bytes rotate crop_pct resize_pct max_kb max_dim with
  | .ok (data, img) => (data, some img)
  | .error _ => (image_bytes, none)

/-- Claim C6: for every input on which decoding or any transform step fails,
`process_image_for_upload` returns the original untouched input bytes paired
with `none`, and never raises: its result is always either the failure
fallback or a successful pair from the try-body. -/
theorem process_failure_fallback {Img E : Type} (C : Codec Img E) (image_bytes : List ℕ)
    (rotate : ℤ) (crop_pct resize_pct max_kb max_dim : ℕ) :
    (∀ e, excBody C image_bytes rotate crop_pct resize_pct max_kb max_dim = .error e →
      process_image_for_upload C image_bytes rotate crop_pct resize_pct max_kb max_dim =
        (image_bytes, none)) ∧
    (process_image_for_upload C image_bytes rotate crop_pct resize_pct max_kb max_dim =
        (image_bytes, none) ∨
      ∃ data img,
        excBody C image_bytes rotate crop_pct resize_pct max_kb max_dim = .ok (data, img) ∧
        process_image_for_upload C image_bytes rotate crop_pct resize_pct max_kb max_dim =
          (data, some img)) := by
  rcases hb : excBody C image_bytes rotate crop_pct resize_pct max_kb max_dim with e | p
  · constructor
    · intro e2 _
      unfold process_image_for_upload
      rw [hb]
    · left
      unfold process_image_for_upload
      rw [hb]
  · obtain ⟨data, img⟩ := p
    constructor
    · intro e2 he
      exact absurd he (by simp)
    · right
      refine ⟨data, img, rfl, ?_⟩
      unfold process_image_for_upload
      rw [hb]

/-- A codec every operation of which fails, used to witness the fallback. -/
def failingCodec : Codec Unit ℕ where
  decode := fun _ => .error 0
  rotateOp := fun _ _ => .error 0
  cropOp := fun _ _ _ _ _ => .error 0
  resizeOp := fun _ _ _ => .error 0
  widthOf := fun _ => 1
  heightOf := fun _ => 1
  encode := fun _ _ => .error 0

/-- Witness for C6: with a codec whose decode fails, the original bytes come
back untouched with no image. -/
theorem process_failure_fallback_witness :
    process_image_for_upload failingCodec [7, 7, 7] 90 10 50 2048 1600 = ([7, 7, 7], none) :=
  (process_failure_fallback failingCodec [7, 7, 7] 90 10 50 2048 1600).1 0 rfl

/-!
Citation resolver (`display_referenced_pages`, `src/app.py` lines 265-277).
The regex `Pages? \s*([\d,\s]+)` with `re.IGNORECASE` is embedded directly
over `List Char`: a match needs the letters `page` case-insensitively, an
optional case-insensitive `s`, a literal space, then `\s*([\d,\s]+)`, whose
combined consumption is the maximal (nonempty) run of digits, commas and
whitespace; the capture is that run minus the whitespace kept by `\s*`
(one whitespace character is handed back to the group when the run is all
whitespace, as the engine backtracks to keep the group nonempty).
`re.findall` scans left to right without overlap.
-/

/-- ASCII decimal digit: the regex class `\d` on the text this app handles. -/
def isDigitC (c : Char) : Bool := decide ('0' ≤ c) && decide (c ≤ '9')

/-- ASCII whitespace: the regex class `\s` on ASCII text. -/
def isWsC (c : Char) : Bool :=
  c = ' ' || c = '\t' || c = '\n' || c = '\r' || c = '\x0b' || c = '\x0c'

/-- The character class of the capture group `[\d,\s]`. -/
def isGroupC (c : Char) : Bool := isDigitC c || c = ',' || isWsC c

/-- ASCII lower-casing, giving effect to the `re.IGNORECASE` flag. -/
def lowc (c : Char) : Char :=
  if 'A' ≤ c ∧ c ≤ 'Z' then Char.ofNat (c.toNat + 32) else c

/-- Case-insensitive match of the literal `page` at the head; returns the
remainder on success. -/
def matchPage : List Char → Option (List Char)
  | p :: a :: g :: e :: rest =>
      if lowc p = 'p' ∧ lowc a = 'a' ∧ lowc g = 'g' ∧ lowc e = 'e' then
        some rest
      else
        none
  | _ => none

/-- Capture of `\s*([\d,\s]+)` out of the maximal `[\d,\s]` run `P`: the
star eats the leading whitespace, except that when `P` is all whitespace it
backtracks by one character so the group stays nonempty. -/
def captureOf (P : List Char) : List Char :=
  if (P.takeWhile isWsC).length = P.length then
    P.drop ((P.takeWhile isWsC).length - 1)
  else
    P.drop (P.takeWhile isWsC).length

/-- After the literal `page`/`pages`: require the literal space of the
pattern, then the maximal nonempty `[\d,\s]` run; returns the captured
group and the text after the whole match. -/
def tryTail : List Char → Option (List Char × List Char)
  | [] => none
  | c :: rest =>
      if c = ' ' then
        if (rest.takeWhile isGroupC).length = 0 then
          none
        else
          some (captureOf (rest.takeWhile isGroupC),
                rest.drop (rest.takeWhile isGroupC).length)
      else
        none

/-- One attempted match of `Pages? \s*([\d,\s]+)` at the current position:
try the optional `s` greedily, backtracking to the shorter alternative when
the rest of the pattern fails. -/
def matchAt (l : List Char) : Option (List Char × List Char) :=
  match matchPage l with
  | none => none
  | some r1 =>
      match r1 with
      | [] => none
      | s1 :: r2 =>
          if lowc s1 = 's' then
            match tryTail r2 with
            | some res => some res
            | none => tryTail r1
          else
            tryTail r1

/-- The left-to-right non-overlapping scan of `re.findall`: try a match at
every position, emit the captured group, continue after the match.  Fueled
by the remaining length; every step consumes at least one character. -/
def scanGo : ℕ → List Char → List (List Char)
  | 0, _ => []
  | _, [] => []
  | fuel + 1, c :: rest =>
      match matchAt (c :: rest) with
      | some (g, aft) => g :: scanGo fuel aft
      | none => scanGo fuel rest

/-- `re.findall(r'Pages? \s*([\d,\s]+)', text, re.IGNORECASE)`. -/
def scanCitations (l : List Char) : List (List Char) := scanGo l.length l

/-- `re.findall(r'\d+', group)`: the maximal digit runs, accumulating the
current run in reverse. -/
def digitRunsGo : List Char → List Char → List (List Char)
  | cur, [] => if cur.length = 0 then [] else [cur.reverse]
  | cur, c :: rest =>
      if isDigitC c then
        digitRunsGo (c :: cur) rest
      else if cur.length = 0 then
        digitRunsGo [] rest
      else
        cur.reverse :: digitRunsGo [] rest

/-- `int()` on a digit string. -/
def natOfDigits (ds : List Char) : ℕ :=
  ds.foldl (fun acc c => 10 * acc + (c.toNat - 48)) 0

/-- All integers inside one captured group (`src/app.py` line 272). -/
def extractInts (g : List Char) : List ℕ :=
  (digitRunsGo [] g).map natOfDigits

/-- The `unique_pages` set built by `display_referenced_pages`
(`src/app.py` lines 267-273): every integer of every captured group,
duplicates collapsed by the set insertions. -/
def pageSet (text : List Char) : Finset ℕ :=
  ((scanCitations text).flatMap extractInts).foldl (fun s n => insert n s) ∅

/-- Whether the letters `page` occur case-insensitively anywhere in the
text: a necessary condition for any match of the pattern. -/
def hasPageTok : List Char → Bool
  | [] => false
  | c :: rest => (matchPage (c :: rest)).isSome || hasPageTok rest

/-- One rendered cell of the referenced-pages section: either the page image
(`st.image`, `src/app.py` lines 285-290) or the explicit warning
`Image for page ... not found.` (line 294). -/
inductive RenderItem where
  | shown (page : ℕ)
  | notFound (page : ℕ)
deriving DecidableEq

/-- The page number a rendered cell is about. -/
def itemPage : RenderItem → ℕ
  | .shown p => p
  | .notFound p => p

/-- The per-page loop of `display_referenced_pages` (`src/app.py` lines
283-294): pages in ascending order (`sorted(list(unique_pages))`), one cell
per page, image if the conventional `page_N.png` file exists, warning
otherwise.  `present` abstracts `os.path.exists` on that path. -/
def renderPages (present : ℕ → Bool) (pages : Finset ℕ) : List RenderItem :=
  (pages.sort (· ≤ ·)).map fun p => if present p then .shown p else .notFound p

/-- `display_referenced_pages` (`src/app.py` lines 265-294): nothing is
rendered when no pages were cited (the `if unique_pages:` guard at line
275), else the sorted cells. -/
def display_referenced_pages (present : ℕ → Bool) (text : List Char) :
    List RenderItem :=
  if pageSet text = ∅ then [] else renderPages present (pageSet text)

/-- Folding set-insertions over a list extends the accumulator by the list
as a finite set. -/
lemma foldl_insert_toFinset (l : List ℕ) :
    ∀ s : Finset ℕ, l.foldl (fun s n => insert n s) s = s ∪ l.toFinset := by
  induction l with
  | nil => intro s; simp
  | cons c t ih =>
      intro s
      simp only [List.foldl_cons, ih, List.toFinset_cons, Finset.insert_union,
        Finset.union_insert]

/-- A successful match starts with the letters `page`. -/
lemma matchAt_isSome_matchPage (l : List Char) (g aft : List Char)
    (h : matchAt l = some (g, aft)) : (matchPage l).isSome := by
  unfold matchAt at h
  rcases hm : matchPage l with _ | r1 <;> rw [hm] at h
  · exact absurd h (by simp)
  · simp

/-- Without the letters `page` anywhere, the scan finds nothing. -/
lemma scanGo_of_no_tok : ∀ (fuel : ℕ) (l : List Char),
    hasPageTok l = false → scanGo fuel l = [] := by
  intro fuel
  induction fuel with
  | zero => intro l _; cases l <;> rfl
  | succ f ih =>
      intro l h
      match l with
      | [] => rfl
      | c :: rest =>
          unfold hasPageTok at h
          rw [Bool.or_eq_false_iff] at h
          obtain ⟨h1, h2⟩ := h
          unfold scanGo
          rcases hm : matchAt (c :: rest) with _ | ⟨g, aft⟩
          · exact ih rest h2
          · have := matchAt_isSome_matchPage (c :: rest) g aft hm
            rw [Option.isSome_iff_exists] at this
            obtain ⟨r, hr⟩ := this
            rw [hr] at h1
            exact absurd h1 (by simp)

/-- Claim C7: the citation resolver collects exactly the distinct integers
found across all case-insensitive `Pages? \s*([\d,\s]+)` matches, duplicates
collapsed into a set; `... (Source: Pages 28, 32)` yields the set of 28 and
32, `Page 15` yields the singleton 15, and text without the letters `page`
yields the empty set, for which no citation section is rendered. -/
theorem citation_pages_spec :
    (∀ text : List Char,
      pageSet text = ((scanCitations text).flatMap extractInts).toFinset) ∧
    (∀ (present : ℕ → Bool) (text : List Char), hasPageTok text = false →
      pageSet text = ∅ ∧ display_referenced_pages present text = []) ∧
    pageSet ("... (Source: Pages 28, 32)".toList) = {28, 32} ∧
    pageSet ("Page 15".toList) = {15} := by
  refine ⟨?_, ?_, by decide, by decide⟩
  · intro text
    unfold pageSet
    rw [foldl_insert_toFinset, Finset.empty_union]
  · intro present text h
    have hset : pageSet text = ∅ := by
      unfold pageSet scanCitations
      rw [scanGo_of_no_tok _ _ h]
      rfl
    refine ⟨hset, ?_⟩
    unfold display_referenced_pages
    rw [hset]
    simp

/-- Witness for C7: a text without the letters `page` has an empty page set
and renders no citation section. -/
theorem citation_pages_spec_witness :
    hasPageTok ("no citations here".toList) = false ∧
    pageSet ("no citations here".toList) = ∅ ∧
    display_referenced_pages (fun _ => false) ("no citations here".toList) = [] :=
  ⟨by decide,
   (citation_pages_spec.2.1 (fun _ => false) ("no citations here".toList) (by decide)).1,
   (citation_pages_spec.2.1 (fun _ => false) ("no citations here".toList) (by decide)).2⟩

/-- Claim C8: for every non-empty set of cited pages the resolver walks the
pages in ascending order, rendering exactly one cell per cited page; a cited
page whose image file is absent yields an explicit not-found cell instead of
being dropped or failing the whole rendering, and a present page yields its
image cell. -/
theorem referenced_pages_render (present : ℕ → Bool) (pages : Finset ℕ)
    (hne : pages.Nonempty) :
    (renderPages present pages).map itemPage = pages.sort (· ≤ ·) ∧
    List.Sorted (· ≤ ·) ((renderPages present pages).map itemPage) ∧
    renderPages present pages ≠ [] ∧
    (∀ p ∈ pages, present p = false →
      RenderItem.notFound p ∈ renderPages present pages) ∧
    (∀ p ∈ pages, present p = true →
      RenderItem.shown p ∈ renderPages present pages) := by
  have hmap : (renderPages present pages).map itemPage = pages.sort (· ≤ ·) := by
    unfold renderPages
    rw [List.map_map]
    have hfun : (itemPage ∘ fun p => if present p then RenderItem.shown p
        else RenderItem.notFound p) = id := by
      funext p
      rcases hp : present p <;> simp [itemPage, hp]
    rw [hfun, List.map_id]
  refine ⟨hmap, ?_, ?_, ?_, ?_⟩
  · rw [hmap]
    exact Finset.sort_sorted _ _
  · intro hnil
    obtain ⟨a, ha⟩ := hne
    have hmem : a ∈ pages.sort (· ≤ ·) := (Finset.mem_sort (· ≤ ·)).2 ha
    rw [← hmap, hnil] at hmem
    exact absurd hmem (List.not_mem_nil a)
  · intro p hp hpf
    unfold renderPages
    exact List.mem_map.2 ⟨p, (Finset.mem_sort (· ≤ ·)).2 hp, by simp [hpf]⟩
  · intro p hp hpt
    unfold renderPages
    exact List.mem_map.2 ⟨p, (Finset.mem_sort (· ≤ ·)).2 hp, by simp [hpt]⟩

/-- Witness for C8: the singleton page set 3 with its image absent renders
an explicit not-found cell for page 3. -/
theorem referenced_pages_render_witness :
    RenderItem.notFound 3 ∈ renderPages (fun _ => false) ({3} : Finset ℕ) :=
  (referenced_pages_render (fun _ => false) {3} (by decide)).2.2.2.1 3 (by decide) rfl

/-!
Chat memory and prompt assembly (`src/app.py` lines 188-192, 228-254,
387-430).  A chat message is a role tagged with its text.
-/

/-- The `role` field of a chat dict: `user` or `assistant`. -/
inductive Role where
  | user
  | assistant
deriving DecidableEq

/-- One entry of `st.session_state[...]`, a dict with `role` and `text`
(`src/app.py` line 185). -/
structure ChatTurn where
  role : Role
  text : List Char
deriving DecidableEq

/-- `add_chat_message` (`src/app.py` lines 188-189): append to the session
chat list. -/
def add_chat_message (chat : List ChatTurn) (m : ChatTurn) : List ChatTurn :=
  chat ++ [m]

/-- The slice `st.session_state[...][-10:]` taken at `src/app.py` line 427:
the most recent 10 turns, or all of them when fewer. -/
def recent_history (chat : List ChatTurn) : List ChatTurn :=
  chat.drop (chat.length - 10)

/-- Appending messages one by one accumulates them all. -/
lemma foldl_add_chat (msgs : List ChatTurn) :
    ∀ l0 : List ChatTurn, msgs.foldl add_chat_message l0 = l0 ++ msgs := by
  induction msgs with
  | nil => intro l0; simp
  | cons c t ih =>
      intro l0
      rw [List.foldl_cons, ih]
      unfold add_chat_message
      rw [List.append_assoc, List.singleton_append]

/-- Claim C9: the model-context window is a suffix of the conversation of
length at most 10 (all of it when shorter), while the retained conversation
keeps every turn: appending 11 turns one by one to an empty conversation
retains all 11, and the window is then exactly the last 10. -/
theorem conversation_window (msgs : List ChatTurn) :
    recent_history msgs <:+ msgs ∧
    (recent_history msgs).length = min 10 msgs.length ∧
    (msgs.length = 11 →
      msgs.foldl add_chat_message [] = msgs ∧
      recent_history (msgs.foldl add_chat_message []) = msgs.drop 1 ∧
      (recent_history (msgs.foldl add_chat_message [])).length = 10) := by
  have hfold : msgs.foldl add_chat_message [] = msgs := by
    rw [foldl_add_chat, List.nil_append]
  refine ⟨List.drop_suffix _ _, ?_, ?_⟩
  · unfold recent_history
    rw [List.length_drop]
    omega
  · intro h11
    refine ⟨hfold, ?_, ?_⟩
    · unfold recent_history
      rw [hfold, h11]
    · unfold recent_history
      rw [hfold, List.length_drop, h11]

/-- Witness for C9: eleven concrete turns; all are retained and the window
is the last ten. -/
theorem conversation_window_witness :
    (List.replicate 11 (ChatTurn.mk Role.user [])).foldl add_chat_message [] =
      List.replicate 11 (ChatTurn.mk Role.user []) ∧
    (recent_history ((List.replicate 11 (ChatTurn.mk Role.user [])).foldl
      add_chat_message [])).length = 10 :=
  ⟨((conversation_window (List.replicate 11 (ChatTurn.mk Role.user []))).2.2
      (by simp)).1,
   ((conversation_window (List.replicate 11 (ChatTurn.mk Role.user []))).2.2
      (by simp)).2.2⟩

/-- The placeholder-opening brace character. -/
def lbrace : Char := Char.ofNat 123

/-- Python `str.replace`: replace every non-overlapping occurrence of the
(here always nonempty) pattern, scanning left to right.  Fueled by the text
length; each step consumes at least one character. -/
def replGo (pat rep : List Char) : ℕ → List Char → List Char
  | 0, l => l
  | _ + 1, [] => []
  | fuel + 1, c :: rest =>
      if pat.isPrefixOf (c :: rest) then
        rep ++ replGo pat rep fuel ((c :: rest).drop pat.length)
      else
        c :: replGo pat rep fuel rest

/-- `s.replace(pat, rep)`. -/
def replaceAll (s pat rep : List Char) : List Char := replGo pat rep s.length s

/-- Whether `pat` occurs as a contiguous substring. -/
def occursB (pat : List Char) : List Char → Bool
  | [] => pat.isPrefixOf []
  | c :: rest => pat.isPrefixOf (c :: rest) || occursB pat rest

/-- The fuel of `replGo` is irrelevant once it covers the text length. -/
lemma replGo_fuel (pat rep : List Char) (hp : pat ≠ []) :
    ∀ (f1 : ℕ) (l : List Char) (f2 : ℕ), l.length ≤ f1 → l.length ≤ f2 →
      replGo pat rep f1 l = replGo pat rep f2 l := by
  have hplen : 1 ≤ pat.length := by
    cases pat with
    | nil => exact absurd rfl hp
    | cons a b => simp
  intro f1
  induction f1 with
  | zero =>
      intro l f2 h1 _
      have hnil : l = [] := List.eq_nil_of_length_eq_zero (Nat.le_zero.1 h1)
      subst hnil
      cases f2 <;> rfl
  | succ f ih =>
      intro l f2 h1 h2
      match l with
      | [] => cases f2 <;> rfl
      | c :: rest =>
          match f2 with
          | 0 => simp at h2
          | g + 1 =>
              rw [List.length_cons] at h1 h2
              unfold replGo
              by_cases hpre : pat.isPrefixOf (c :: rest) = true
              · rw [if_pos hpre, if_pos hpre]
                congr 1
                apply ih
                · rw [List.length_drop, List.length_cons]
                  omega
                · rw [List.length_drop, List.length_cons]
                  omega
              · rw [if_neg hpre, if_neg hpre]
                congr 1
                apply ih
                · omega
                · omega

/-- Unfolding equation of `replGo` at a nonempty text with nonzero fuel. -/
lemma replGo_cons (pat rep : List Char) (fuel : ℕ) (c : Char) (rest : List Char) :
    replGo pat rep (fuel + 1) (c :: rest) =
      if pat.isPrefixOf (c :: rest) then
        rep ++ replGo pat rep fuel ((c :: rest).drop pat.length)
      else
        c :: replGo pat rep fuel rest := rfl

/-- Scanning step when the pattern does not match at the head. -/
lemma replaceAll_cons_neg (pat rep : List Char) (c : Char) (rest : List Char)
    (h : ¬ pat.isPrefixOf (c :: rest) = true) :
    replaceAll (c :: rest) pat rep = c :: replaceAll rest pat rep := by
  unfold replaceAll
  rw [List.length_cons, replGo_cons, if_neg h]

/-- Scanning step when the pattern matches at the head: replace it and
continue after it. -/
lemma replaceAll_pos (pat rep : List Char) (hp : pat ≠ []) (Y : List Char) :
    replaceAll (pat ++ Y) pat rep = rep ++ replaceAll Y pat rep := by
  cases pat with
  | nil => exact absurd rfl hp
  | cons a t =>
      have hpre : (a :: t).isPrefixOf (a :: (t ++ Y)) = true := by
        apply List.isPrefixOf_iff_prefix.2
        rw [← List.cons_append]
        exact List.prefix_append _ _
      show replGo (a :: t) rep ((t ++ Y).length + 1) (a :: (t ++ Y)) =
        rep ++ replaceAll Y (a :: t) rep
      rw [replGo_cons, if_pos hpre]
      congr 1
      have hdrop : (a :: (t ++ Y)).drop (a :: t).length = Y := by
        rw [← List.cons_append]
        exact List.drop_left (a :: t) Y
      rw [hdrop]
      apply replGo_fuel _ _ (by simp)
      · rw [List.length_append]
        omega
      · exact le_refl _

/-- Replacing a pattern that does not occur leaves the text unchanged. -/
lemma replaceAll_of_not_occurs (pat rep : List Char) :
    ∀ s, occursB pat s = false → replaceAll s pat rep = s := by
  intro s
  induction s with
  | nil => intro _; rfl
  | cons c rest ih =>
      intro h
      unfold occursB at h
      rw [Bool.or_eq_false_iff] at h
      obtain ⟨h1, h2⟩ := h
      rw [replaceAll_cons_neg pat rep c rest (by simp [h1]), ih h2]

/-- Replacement through a pattern-free prefix: when the pattern starts with
the brace and the prefix has no brace, the first occurrence is replaced and
scanning continues past it. -/
lemma replaceAll_split (pat rep t : List Char) (hpat : pat = lbrace :: t) :
    ∀ X : List Char, X.all (fun c => c != lbrace) = true → ∀ Y,
      replaceAll (X ++ (pat ++ Y)) pat rep = X ++ (rep ++ replaceAll Y pat rep) := by
  intro X
  induction X with
  | nil =>
      intro _ Y
      rw [List.nil_append, List.nil_append]
      exact replaceAll_pos pat rep (by rw [hpat]; simp) Y
  | cons c X ih =>
      intro hall Y
      rw [List.all_cons, Bool.and_eq_true] at hall
      obtain ⟨hc, hX⟩ := hall
      have hcne : c ≠ lbrace := bne_iff_ne.1 hc
      have hnp : ¬ pat.isPrefixOf (c :: (X ++ (pat ++ Y))) = true := by
        rw [hpat]
        intro hpre
        have hpre2 := List.isPrefixOf_iff_prefix.1 hpre
        rw [List.cons_prefix_cons] at hpre2
        exact hcne hpre2.1.symm
      rw [List.cons_append, replaceAll_cons_neg pat rep c _ hnp, ih hX Y,
        ← List.cons_append]

/-- The prompt template of `get_gemini_response` (`src/app.py` lines
237-254), transcribed verbatim (placeholder braces and apostrophes are
written as character escapes). -/
def promptTemplate : List Char :=
  "\n            You are an expert assistant specialized in analyzing technical manuals for complex machinery like ultrasound equipment.\n            Your task is to answer the user\x27s question based ONLY on the provided context from the manual and the recent conversation below.\n            If the user provides an image, use it as part of their query (e.g., \"What is this button?\" with an image of a button).\n            After providing the answer, you MUST cite the specific page number(s) where you found the information.\n            Format your citation clearly at the end of your answer, for example: (Source: Page 15) or (Source: Pages 28, 32).\n\n            CONTEXT FROM MANUAL:\n            \x7bcontext\x7d\n\n            RECENT CONVERSATION:\n            \x7bhistory\x7d\n\n            CURRENT QUESTION:\n            \x7bquestion\x7d\n\n            ASSISTANT\x27S ANSWER:\n            ".toList

/-- The template text before the context placeholder. -/
def tpl1 : List Char := "\n            You are an expert assistant specialized in analyzing technical manuals for complex machinery like ultrasound equipment.\n            Your task is to answer the user\x27s question based ONLY on the provided context from the manual and the recent conversation below.\n            If the user provides an image, use it as part of their query (e.g., \"What is this button?\" with an image of a button).\n            After providing the answer, you MUST cite the specific page number(s) where you found the information.\n            Format your citation clearly at the end of your answer, for example: (Source: Page 15) or (Source: Pages 28, 32).\n\n            CONTEXT FROM MANUAL:\n            ".toList

/-- The template text between the context and history placeholders. -/
def tpl2 : List Char := "\n\n            RECENT CONVERSATION:\n            ".toList

/-- The template text between the history and question placeholders. -/
def tpl3 : List Char := "\n\n            CURRENT QUESTION:\n            ".toList

/-- The template text after the question placeholder. -/
def tpl4 : List Char := "\n\n            ASSISTANT\x27S ANSWER:\n            ".toList

set_option maxRecDepth 40000 in
/-- The template splits at its three placeholders. -/
lemma promptTemplate_split :
    promptTemplate = tpl1 ++ ("\x7bcontext\x7d".toList ++ (tpl2 ++
      ("\x7bhistory\x7d".toList ++ (tpl3 ++ ("\x7bquestion\x7d".toList ++
      tpl4))))) := by decide
/-- One transcript line (`src/app.py` line 234): prefixed `User: ` for user
turns and `Assistant: ` otherwise. -/
def roleLine (m : ChatTurn) : List Char :=
  (if m.role = Role.user then "User: ".toList else "Assistant: ".toList) ++ m.text

/-- Python `"\n".join`: a newline between consecutive pieces, nothing
around them. -/
def joinNl : List (List Char) → List Char
  | [] => []
  | [x] => x
  | x :: y :: rest => x ++ '\n' :: joinNl (y :: rest)

/-- `history_text` (`src/app.py` line 234). -/
def history_text (hist : List ChatTurn) : List Char :=
  joinNl (hist.map roleLine)

/-- The prompt of `get_gemini_response` (`src/app.py` lines 236-254): the
three placeholders substituted in order by `str.replace`. -/
def get_gemini_prompt (question context : List Char)
    (chat_history : List ChatTurn) : List Char :=
  replaceAll (replaceAll (replaceAll promptTemplate
      ("\x7bcontext\x7d".toList) context)
      ("\x7bhistory\x7d".toList) (history_text chat_history))
    ("\x7bquestion\x7d".toList) question

/-- The question-submission flow (`src/app.py` lines 391-430): the user
question is appended to the chat first, then the window of the most recent
10 turns is sliced and the prompt assembled from it. -/
def submitQuestion (chat : List ChatTurn) (context question : List Char) :
    List Char × List ChatTurn :=
  (get_gemini_prompt question context
      (recent_history (add_chat_message chat (ChatTurn.mk Role.user question))),
    add_chat_message chat (ChatTurn.mk Role.user question))

/-- Joining with a trailing piece appended. -/
lemma joinNl_concat (x : List Char) :
    ∀ ls : List (List Char), joinNl (ls ++ [x]) =
      if ls.length = 0 then x else joinNl ls ++ '\n' :: x := by
  intro ls
  induction ls with
  | nil => rfl
  | cons a ls ih =>
      cases ls with
      | nil => simp [joinNl]
      | cons b ls2 =>
          have h1 : joinNl ((a :: b :: ls2) ++ [x]) =
              a ++ '\n' :: joinNl ((b :: ls2) ++ [x]) := rfl
          rw [h1, ih]
          simp [joinNl, List.append_assoc]

/-- A join of brace-free pieces is brace-free. -/
lemma joinNl_all_ne_lbrace :
    ∀ ls : List (List Char), (∀ x ∈ ls, x.all (fun c => c != lbrace) = true) →
      (joinNl ls).all (fun c => c != lbrace) = true := by
  intro ls
  induction ls with
  | nil => intro _; rfl
  | cons a ls ih =>
      intro h
      cases ls with
      | nil => exact h a (by simp)
      | cons b ls2 =>
          show (a ++ '\n' :: joinNl (b :: ls2)).all (fun c => c != lbrace) = true
          rw [List.all_append, List.all_cons, Bool.and_eq_true, Bool.and_eq_true]
          refine ⟨h a (by simp), by decide, ?_⟩
          exact ih (fun x hx => h x (List.mem_cons_of_mem a hx))

/-- A transcript of brace-free messages is brace-free. -/
lemma history_text_all_ne_lbrace (hist : List ChatTurn)
    (h : ∀ m ∈ hist, m.text.all (fun c => c != lbrace) = true) :
    (history_text hist).all (fun c => c != lbrace) = true := by
  unfold history_text
  apply joinNl_all_ne_lbrace
  intro x hx
  rw [List.mem_map] at hx
  obtain ⟨m, hm, hxm⟩ := hx
  subst hxm
  unfold roleLine
  rw [List.all_append, Bool.and_eq_true]
  refine ⟨?_, h m hm⟩
  split <;> decide

set_option maxRecDepth 40000 in
/-- Substituting brace-free values hits each placeholder exactly once: the
prompt is the template text interleaved with context, transcript and
question. -/
lemma get_gemini_prompt_eq (question context : List Char) (hist : List ChatTurn)
    (hctx : context.all (fun c => c != lbrace) = true)
    (hh : (history_text hist).all (fun c => c != lbrace) = true) :
    get_gemini_prompt question context hist =
      tpl1 ++ context ++ tpl2 ++ history_text hist ++ tpl3 ++ question ++ tpl4 := by
  have hpat1 : ("\x7bcontext\x7d".toList) = lbrace :: ("context\x7d".toList) := by
    decide
  have hpat2 : ("\x7bhistory\x7d".toList) = lbrace :: ("history\x7d".toList) := by
    decide
  have hpat3 : ("\x7bquestion\x7d".toList) = lbrace :: ("question\x7d".toList) := by
    decide
  have htpl1 : tpl1.all (fun c => c != lbrace) = true := by decide
  have hY1 : occursB ("\x7bcontext\x7d".toList)
      (tpl2 ++ ("\x7bhistory\x7d".toList ++ (tpl3 ++ ("\x7bquestion\x7d".toList ++
        tpl4)))) = false := by decide
  have h1 : replaceAll promptTemplate ("\x7bcontext\x7d".toList) context =
      tpl1 ++ (context ++ (tpl2 ++ ("\x7bhistory\x7d".toList ++ (tpl3 ++
        ("\x7bquestion\x7d".toList ++ tpl4))))) := by
    rw [promptTemplate_split, replaceAll_split _ _ _ hpat1 tpl1 htpl1,
      replaceAll_of_not_occurs _ _ _ hY1]
  have hre2 : tpl1 ++ (context ++ (tpl2 ++ ("\x7bhistory\x7d".toList ++ (tpl3 ++
      ("\x7bquestion\x7d".toList ++ tpl4))))) =
      (tpl1 ++ (context ++ tpl2)) ++ ("\x7bhistory\x7d".toList ++ (tpl3 ++
      ("\x7bquestion\x7d".toList ++ tpl4))) := by
    simp [List.append_assoc]
  have hX2 : (tpl1 ++ (context ++ tpl2)).all (fun c => c != lbrace) = true := by
    rw [List.all_append, List.all_append, htpl1, hctx]
    decide
  have hY2 : occursB ("\x7bhistory\x7d".toList)
      (tpl3 ++ ("\x7bquestion\x7d".toList ++ tpl4)) = false := by decide
  have h2 : replaceAll (replaceAll promptTemplate ("\x7bcontext\x7d".toList) context)
      ("\x7bhistory\x7d".toList) (history_text hist) =
      (tpl1 ++ (context ++ tpl2)) ++ (history_text hist ++ (tpl3 ++
        ("\x7bquestion\x7d".toList ++ tpl4))) := by
    rw [h1, hre2, replaceAll_split _ _ _ hpat2 _ hX2,
      replaceAll_of_not_occurs _ _ _ hY2]
  have hre3 : (tpl1 ++ (context ++ tpl2)) ++ (history_text hist ++ (tpl3 ++
      ("\x7bquestion\x7d".toList ++ tpl4))) =
      ((tpl1 ++ (context ++ tpl2)) ++ (history_text hist ++ tpl3)) ++
        ("\x7bquestion\x7d".toList ++ tpl4) := by
    simp [List.append_assoc]
  have hX3 : ((tpl1 ++ (context ++ tpl2)) ++ (history_text hist ++ tpl3)).all
      (fun c => c != lbrace) = true := by
    rw [List.all_append, List.all_append, List.all_append, List.all_append,
      htpl1, hctx, hh]
    decide
  have hY3 : occursB ("\x7bquestion\x7d".toList) tpl4 = false := by decide
  unfold get_gemini_prompt
  rw [h2, hre3, replaceAll_split _ _ _ hpat3 _ hX3,
    replaceAll_of_not_occurs _ _ _ hY3]
  simp [List.append_assoc]

set_option maxRecDepth 40000 in
/-- Claim C10: the user question is appended to the conversation before the
most-recent-10 window is sliced, so the window ends with that question as
its final `User:` turn, only the 9 turns preceding it survive the slice,
and the question appears twice in the assembled prompt — once at the end of
the RECENT CONVERSATION transcript and once in the CURRENT QUESTION
section. -/
theorem question_appears_twice (chat : List ChatTurn)
    (context question : List Char)
    (hctx : context.all (fun c => c != lbrace) = true)
    (hq : question.all (fun c => c != lbrace) = true)
    (hchat : ∀ m ∈ chat, m.text.all (fun c => c != lbrace) = true) :
    (submitQuestion chat context question).2 =
      chat ++ [ChatTurn.mk Role.user question] ∧
    recent_history (submitQuestion chat context question).2 =
      chat.drop (chat.length - 9) ++ [ChatTurn.mk Role.user question] ∧
    (∃ H, history_text (recent_history (submitQuestion chat context question).2) =
      H ++ ("User: ".toList ++ question)) ∧
    (submitQuestion chat context question).1 =
      tpl1 ++ context ++ tpl2 ++
        history_text (recent_history (submitQuestion chat context question).2) ++
        tpl3 ++ question ++ tpl4 ∧
    (∃ A, (submitQuestion chat context question).1 =
      A ++ (question ++ (tpl3 ++ (question ++ tpl4)))) := by
  have hsub2 : (submitQuestion chat context question).2 =
      chat ++ [ChatTurn.mk Role.user question] := rfl
  have hrec : recent_history (chat ++ [ChatTurn.mk Role.user question]) =
      chat.drop (chat.length - 9) ++ [ChatTurn.mk Role.user question] := by
    unfold recent_history
    have hlen : (chat ++ [ChatTurn.mk Role.user question]).length - 10 =
        chat.length - 9 := by
      rw [List.length_append, List.length_singleton]
      omega
    rw [hlen, List.drop_append_of_le_length (by omega)]
  have hrole : roleLine (ChatTurn.mk Role.user question) =
      "User: ".toList ++ question := by
    unfold roleLine
    rw [if_pos rfl]
  have hhist : ∀ prev : List ChatTurn,
      ∃ H, history_text (prev ++ [ChatTurn.mk Role.user question]) =
        H ++ ("User: ".toList ++ question) := by
    intro prev
    unfold history_text
    rw [List.map_append, List.map_singleton, joinNl_concat]
    by_cases hp : (prev.map roleLine).length = 0
    · rw [if_pos hp, hrole]
      exact ⟨[], by rw [List.nil_append]⟩
    · rw [if_neg hp, hrole]
      refine ⟨joinNl (prev.map roleLine) ++ [Char.ofNat 10], ?_⟩
      simp [List.append_assoc]
  have hh : (history_text (recent_history (chat ++ [ChatTurn.mk Role.user
      question]))).all (fun c => c != lbrace) = true := by
    apply history_text_all_ne_lbrace
    intro m hm
    rw [hrec, List.mem_append] at hm
    rcases hm with hm | hm
    · exact hchat m (List.mem_of_mem_drop hm)
    · rw [List.mem_singleton] at hm
      subst hm
      exact hq
  have hprompt : (submitQuestion chat context question).1 =
      tpl1 ++ context ++ tpl2 ++
        history_text (recent_history (chat ++ [ChatTurn.mk Role.user question])) ++
        tpl3 ++ question ++ tpl4 := by
    show get_gemini_prompt question context
      (recent_history (chat ++ [ChatTurn.mk Role.user question])) = _
    exact get_gemini_prompt_eq question context _ hctx hh
  refine ⟨hsub2, ?_, ?_, ?_, ?_⟩
  · rw [hsub2]
    exact hrec
  · rw [hsub2, hrec]
    exact hhist _
  · rw [hsub2]
    exact hprompt
  · obtain ⟨H, hH⟩ := hhist (chat.drop (chat.length - 9))
    refine ⟨tpl1 ++ context ++ tpl2 ++ H ++ "User: ".toList, ?_⟩
    rw [hprompt, hrec, hH]
    simp [List.append_assoc]

/-- Witness for C10: a concrete submission on an empty conversation; the
question occurs both in the transcript slot and in the question slot of the
prompt. -/
theorem question_appears_twice_witness :
    ∃ A, (submitQuestion [] ("ctx".toList) ("why".toList)).1 =
      A ++ (("why".toList) ++ (tpl3 ++ (("why".toList) ++ tpl4))) :=
  (question_appears_twice [] ("ctx".toList) ("why".toList) (by decide) (by decide)
    (fun m hm => absurd hm (List.not_mem_nil m))).2.2.2.2
